import Mathlib

/-!
Verification of `scripts/analyze-password-hashes.py`.

The script's two algorithmic cores are embedded shallowly over `List Char`
(the dumps the script reads are ASCII text, so Python's `\d` and `\s`
character classes are modelled by their ASCII meanings):

* the hash classifier `detect_algorithm` together with the work-factor
  extractors `parse_pbkdf2_iterations` (Python `re.search(r'\$i=(\d+)\$')`)
  and `parse_bcrypt_cost` (Python `re.match(r'\$2[aby]\$(\d+)\$')`);
* the SAXDB section extractor `parse_saxdb_nickserv`: substring search for
  the quoted section token, brace-depth scan for the section body, and the
  two finditer loops over the account pattern
  `"([^"]+)"\s*\x7b\s*([^\x7d]+)\s*\x7d;` and the property pattern
  `"([^"]+)"\s+(?:"([^"]*)"|(\([^)]*\)));?\s*`, compiled to explicit
  leftmost-match scanners with Python's backtracking semantics resolved.

Python dicts are modelled as association lists with insertion-order keys and
overwrite-on-repeated-key (`dictInsert`).
-/

/-- ASCII meaning of Python's `\s` class. -/
def pySpace (c : Char) : Bool :=
  c == ' ' || c == '\t' || c == '\n' || c == '\r' || c == '\x0b' || c == '\x0c'

/-- The character set `'0123456789abcdefABCDEF'` used by `detect_algorithm`. -/
def hexChars : List Char := "0123456789abcdefABCDEF".toList

def isHexChar (c : Char) : Bool := hexChars.contains c

/-- Python `int()` on a string of decimal digits. -/
def natOfDigits (ds : List Char) : Nat :=
  ds.foldl (fun n c => 10 * n + (c.toNat - '0'.toNat)) 0

def pfx256 : List Char := "$pbkdf2-sha256$".toList
def pfx512 : List Char := "$pbkdf2-sha512$".toList
def pfxArgon : List Char := "$argon2id$".toList

/-- The bcrypt shape test of `detect_algorithm`:
`len(s) >= 4 and s[0] == '$' and s[1] == '2' and s[2] in ('a','b','y') and s[3] == '$'`. -/
def bcryptShape (s : List Char) : Bool :=
  decide (4 ≤ s.length) && (s.getD 0 ' ' == '$') && (s.getD 1 ' ' == '2')
    && (s.getD 2 ' ' == 'a' || s.getD 2 ' ' == 'b' || s.getD 2 ' ' == 'y')
    && (s.getD 3 ' ' == '$')

/-- `s.startswith('$') and len(s) == 41` and all of `s[1:]` hex. -/
def seededShape (s : List Char) : Bool :=
  List.isPrefixOf ['$'] s && (s.length == 41) && (s.drop 1).all isHexChar

/-- `len(s) == 32` and all characters hex. -/
def plainShape (s : List Char) : Bool :=
  (s.length == 32) && s.all isHexChar

/-- `detect_algorithm` from the script: the ordered chain of format tests. -/
def detect_algorithm (s : List Char) : String :=
  if s.isEmpty then "empty"
  else if List.isPrefixOf pfx256 s then "pbkdf2-sha256"
  else if List.isPrefixOf pfx512 s then "pbkdf2-sha512"
  else if bcryptShape s then "bcrypt"
  else if List.isPrefixOf pfxArgon s then "argon2id"
  else if seededShape s then "md5-seeded"
  else if plainShape s then "md5-plain"
  else "unknown"

/-- The `(\d+)\$` tail of both work-factor regexes: a greedy nonempty digit
run that must be followed by `'$'` (shorter runs can never satisfy the
backtracking, since the character after a shorter run is a digit). -/
def grabCost (t : List Char) : Option Nat :=
  if (t.takeWhile Char.isDigit).isEmpty then none
  else
    match t.drop (t.takeWhile Char.isDigit).length with
    | e :: _ => if e == '$' then some (natOfDigits (t.takeWhile Char.isDigit)) else none
    | [] => none

/-- One attempted match of `\$i=(\d+)\$` at the head of `s`. -/
def matchIterAt (s : List Char) : Option Nat :=
  match s with
  | a :: b :: c :: t =>
    if a == '$' && b == 'i' && c == '=' then grabCost t else none
  | _ => none

/-- `parse_pbkdf2_iterations` from the script:
`re.search(r'\$i=(\d+)\$', s)`, i.e. the leftmost position where the
pattern matches. -/
def parse_pbkdf2_iterations : List Char → Option Nat
  | [] => none
  | c :: cs =>
    match matchIterAt (c :: cs) with
    | some n => some n
    | none => parse_pbkdf2_iterations cs

/-- `parse_bcrypt_cost` from the script:
`re.match(r'\$2[aby]\$(\d+)\$', s)`, anchored at the start. -/
def parse_bcrypt_cost (s : List Char) : Option Nat :=
  match s with
  | a :: b :: c :: d :: t =>
    if a == '$' && b == '2' && (c == 'a' || c == 'b' || c == 'y') && d == '$' then
      grabCost t
    else none
  | _ => none

/-! Spec-side restatements of the classifier claims (phrased from the
specification's words, to be proved equal to the code-side definitions). -/

/-- Spec wording of rule 4: `s` begins with `$`, then `2`, then one of
`a`/`b`/`y`, then `$`. -/
def bcryptSpecShape : List Char → Bool
  | a :: b :: c :: d :: _ =>
    a == '$' && b == '2' && (c == 'a' || c == 'b' || c == 'y') && d == '$'
  | _ => false

/-- The classifier exactly as the spec's ordered rule list words it
("prefix P" read as: the first `|P|` characters of `s` are `P`). -/
def classifySpec (s : List Char) : String :=
  if s == [] then "empty"
  else if s.take pfx256.length == pfx256 then "pbkdf2-sha256"
  else if s.take pfx512.length == pfx512 then "pbkdf2-sha512"
  else if bcryptSpecShape s then "bcrypt"
  else if s.take pfxArgon.length == pfxArgon then "argon2id"
  else if (s.take 1 == ['$']) && (s.length == 41) && (s.drop 1).all isHexChar then "md5-seeded"
  else if (s.length == 32) && s.all isHexChar then "md5-plain"
  else "unknown"

/-- Split a character list at the first occurrence of `ch`: returns the part
strictly before it and the part strictly after it. -/
def splitAtChar (ch : Char) : List Char → Option (List Char × List Char)
  | [] => none
  | c :: cs =>
    if c == ch then some ([], cs)
    else
      match splitAtChar ch cs with
      | none => none
      | some (b, a) => some (c :: b, a)

/-- Spec wording of the work-factor tail: the segment strictly before the
next `$`, required to be a nonempty string of digits. -/
def grabCostSpec (t : List Char) : Option Nat :=
  match splitAtChar '$' t with
  | some (seg, _) => if !seg.isEmpty && seg.all Char.isDigit then some (natOfDigits seg) else none
  | none => none

/-- Spec wording of a `$i=<digits>$` segment starting at the head of `s`. -/
def iterSpecAt (s : List Char) : Option Nat :=
  match s with
  | a :: b :: c :: t =>
    if a == '$' && b == 'i' && c == '=' then grabCostSpec t else none
  | _ => none

/-- Spec wording of pbkdf2 work-factor extraction: the first segment
matching `$i=<digits>$` anywhere in the string. -/
def iterSpec : List Char → Option Nat
  | [] => none
  | c :: cs =>
    match iterSpecAt (c :: cs) with
    | some n => some n
    | none => iterSpec cs

/-- Spec wording of bcrypt work-factor extraction: the digit segment
immediately following the `$2[aby]$` prefix, terminated by the next `$`. -/
def bcryptCostSpec (s : List Char) : Option Nat :=
  match s with
  | a :: b :: c :: d :: t =>
    if a == '$' && b == '2' && (c == 'a' || c == 'b' || c == 'y') && d == '$' then
      grabCostSpec t
    else none
  | _ => none

/-- The six non-empty match conditions of the classifier, in decision order. -/
def sixConds (s : List Char) : List Bool :=
  [List.isPrefixOf pfx256 s, List.isPrefixOf pfx512 s, bcryptShape s,
   List.isPrefixOf pfxArgon s, seededShape s, plainShape s]

/-! ### Helper lemmas -/

theorem isPrefixOf_exists (l : List Char) : ∀ s, List.isPrefixOf l s = true ↔ ∃ r, s = l ++ r := by
  induction l with
  | nil =>
    intro s
    simp [List.isPrefixOf]
  | cons x xs ih =>
    intro s
    cases s with
    | nil =>
      simp [List.isPrefixOf]
    | cons y ys =>
      simp only [List.isPrefixOf, Bool.and_eq_true, beq_iff_eq, ih ys, List.cons_append,
        List.cons.injEq]
      constructor
      · rintro ⟨hxy, r, hr⟩
        exact ⟨r, hxy.symm, hr⟩
      · rintro ⟨r, hxy, hr⟩
        exact ⟨hxy.symm, r, hr⟩

theorem charBeq_comm (x y : Char) : (x == y) = (y == x) := by
  by_cases h : x = y
  · subst h; rfl
  · rw [beq_eq_false_iff_ne.mpr h, beq_eq_false_iff_ne.mpr (Ne.symm h)]

theorem isPrefixOf_eq_take (l : List Char) : ∀ s, List.isPrefixOf l s = (s.take l.length == l) := by
  induction l with
  | nil =>
    intro s
    simp [List.isPrefixOf]
  | cons x xs ih =>
    intro s
    cases s with
    | nil =>
      simp [List.isPrefixOf]
    | cons y ys =>
      simp only [List.isPrefixOf, List.length_cons, List.take_succ_cons, List.cons_beq_cons,
        ih ys, charBeq_comm x y]

theorem bcryptShape_eq_spec (s : List Char) : bcryptShape s = bcryptSpecShape s := by
  match s with
  | [] => rfl
  | [a] => rfl
  | [a, b] => rfl
  | [a, b, c] => rfl
  | a :: b :: c :: d :: t =>
    have h4 : decide (4 ≤ (a :: b :: c :: d :: t).length) = true := by
      simp only [decide_eq_true_eq, List.length_cons]
      omega
    simp only [bcryptShape, bcryptSpecShape, h4, Bool.true_and, List.getD_cons_zero,
      List.getD_cons_succ]

theorem splitAtChar_none (ch : Char) : ∀ l, splitAtChar ch l = none ↔ ch ∉ l := by
  intro l
  induction l with
  | nil => simp [splitAtChar]
  | cons c cs ih =>
    simp only [splitAtChar, List.mem_cons, not_or]
    by_cases hc : c == ch
    · have hceq : c = ch := by simpa using hc
      subst hceq
      simp
    · have hne : c ≠ ch := by simpa using hc
      simp only [hc, Bool.false_eq_true, if_false]
      constructor
      · intro h
        cases hs : splitAtChar ch cs with
        | none => exact ⟨fun he => hne he.symm, ih.1 hs⟩
        | some ba =>
          obtain ⟨b, a⟩ := ba
          rw [hs] at h
          simp at h
      · rintro ⟨h1, h2⟩
        rw [ih.2 h2]

theorem splitAtChar_some (ch : Char) :
    ∀ l b a, splitAtChar ch l = some (b, a) → l = b ++ ch :: a ∧ ch ∉ b := by
  intro l
  induction l with
  | nil => intro b a h; simp [splitAtChar] at h
  | cons c cs ih =>
    intro b a h
    by_cases hc : c == ch
    · have hceq : c = ch := by simpa using hc
      subst hceq
      simp [splitAtChar] at h
      obtain ⟨hb, ha⟩ := h
      subst hb; subst ha
      simp
    · simp only [splitAtChar, hc, Bool.false_eq_true, if_false] at h
      cases hs : splitAtChar ch cs with
      | none => rw [hs] at h; simp at h
      | some ba =>
        rw [hs] at h
        obtain ⟨b0, a0⟩ := ba
        simp only [Option.some.injEq, Prod.mk.injEq] at h
        obtain ⟨hb, ha⟩ := h
        obtain ⟨hcs, hnb⟩ := ih b0 a0 hs
        subst hb; subst ha; subst hcs
        refine ⟨rfl, ?_⟩
        simp only [List.mem_cons, not_or]
        refine ⟨?_, hnb⟩
        intro he
        exact (by simpa using hc : ¬c = ch) he.symm

theorem splitAtChar_append (ch : Char) :
    ∀ b a, ch ∉ b → splitAtChar ch (b ++ ch :: a) = some (b, a) := by
  intro b
  induction b with
  | nil => intro a _; simp [splitAtChar]
  | cons c cs ih =>
    intro a h
    simp only [List.mem_cons, not_or] at h
    obtain ⟨h1, h2⟩ := h
    have hc : (c == ch) = false := beq_eq_false_iff_ne.mpr (fun he => h1 he.symm)
    simp [splitAtChar, hc, ih a h2]

theorem splitAtChar_length (ch : Char) {l b a : List Char}
    (h : splitAtChar ch l = some (b, a)) : a.length < l.length := by
  obtain ⟨hl, _⟩ := splitAtChar_some ch l b a h
  subst hl
  simp only [List.length_append, List.length_cons]
  omega

theorem isEmpty_iff_nil {l : List Char} : l.isEmpty = true ↔ l = [] := by
  cases l <;> simp [List.isEmpty]

theorem drop_takeWhile_length (p : Char → Bool) :
    ∀ l : List Char, l.drop (l.takeWhile p).length = l.dropWhile p := by
  intro l
  induction l with
  | nil => rfl
  | cons c cs ih =>
    by_cases hc : p c
    · simp [List.takeWhile_cons, List.dropWhile_cons, hc, ih]
    · simp only [Bool.not_eq_true] at hc
      simp [List.takeWhile_cons, List.dropWhile_cons, hc]

theorem takeWhile_length_le (p : Char → Bool) :
    ∀ l : List Char, (l.takeWhile p).length ≤ l.length := by
  intro l
  induction l with
  | nil => simp
  | cons c cs ih =>
    by_cases hc : p c
    · simp only [List.takeWhile_cons, hc, if_true, List.length_cons]
      omega
    · simp only [Bool.not_eq_true] at hc
      simp [List.takeWhile_cons, hc]

theorem drop_append_le {n : Nat} : ∀ (b r : List Char), n ≤ b.length →
    (b ++ r).drop n = b.drop n ++ r := by
  intro b r h
  rw [List.drop_append_eq_append_drop]
  have h0 : n - b.length = 0 := by omega
  rw [h0, List.drop_zero]

theorem all_false_dropWhile (p : Char → Bool) :
    ∀ b : List Char, b.all p = false → ∃ e r', b.dropWhile p = e :: r' ∧ p e = false ∧ e ∈ b := by
  intro b
  induction b with
  | nil => intro h; simp at h
  | cons c cs ih =>
    intro h
    by_cases hc : p c
    · simp only [List.all_cons, hc, Bool.true_and] at h
      obtain ⟨e, r', h1, h2, h3⟩ := ih h
      exact ⟨e, r', by simp [List.dropWhile_cons, hc, h1], h2, by simp [h3]⟩
    · simp only [Bool.not_eq_true] at hc
      exact ⟨c, cs, by simp [List.dropWhile_cons, hc], hc, by simp⟩

theorem takeWhile_append_not_all (p : Char → Bool) {b r : List Char} (h : b.all p = false) :
    (b ++ r).takeWhile p = b.takeWhile p := by
  rw [List.takeWhile_append]
  have hne : ¬((b.takeWhile p).length = b.length) := by
    intro hlen
    have hsplit := List.takeWhile_append_dropWhile p b
    obtain ⟨e, r', h1, h2, h3⟩ := all_false_dropWhile p b h
    have hlt : (b.takeWhile p).length + (b.dropWhile p).length = b.length := by
      rw [← List.length_append, hsplit]
    rw [h1] at hlt
    simp only [List.length_cons] at hlt
    omega
  simp [hne]

theorem grabCost_eq_spec (t : List Char) : grabCost t = grabCostSpec t := by
  cases h : splitAtChar '$' t with
  | none =>
    have hmem : '$' ∉ t := (splitAtChar_none '$' t).1 h
    unfold grabCost grabCostSpec
    rw [h]
    by_cases he : (t.takeWhile Char.isDigit).isEmpty
    · simp [he]
    · simp only [he, Bool.false_eq_true, if_false]
      cases hd : t.drop (t.takeWhile Char.isDigit).length with
      | nil => rfl
      | cons e r =>
        have hemem : e ∈ t := by
          have hh : e ∈ t.drop (t.takeWhile Char.isDigit).length := by simp [hd]
          exact List.drop_subset _ t hh
        have hf : (e == '$') = false := beq_eq_false_iff_ne.mpr (fun hc => hmem (hc ▸ hemem))
        simp [hf]
  | some ba =>
    obtain ⟨b, a⟩ := ba
    obtain ⟨ht, hnb⟩ := splitAtChar_some '$' t b a h
    subst ht
    unfold grabCost grabCostSpec
    rw [h]
    cases hball : b.all Char.isDigit with
    | true =>
      cases hbn : b with
      | nil =>
        subst hbn
        simp [List.takeWhile_cons]
      | cons b0 bs =>
        rw [← hbn]
        have hbne : b ≠ [] := by simp [hbn]
        have htw : ((b ++ '$' :: a).takeWhile Char.isDigit) = b := by
          have hall : ∀ x ∈ b, Char.isDigit x := by
            intro x hx
            exact (List.all_eq_true.1 hball) x hx
          rw [List.takeWhile_append_of_pos hall]
          simp [List.takeWhile_cons]
        rw [htw]
        have hne : b.isEmpty = false := by
          cases b
          · exact absurd rfl hbne
          · rfl
        simp only [hne, Bool.false_eq_true, if_false, Bool.not_false, hball, Bool.and_true,
          Bool.true_and]
        rw [List.drop_left]
        simp
    | false =>
      have htw : ((b ++ '$' :: a).takeWhile Char.isDigit) = b.takeWhile Char.isDigit :=
        takeWhile_append_not_all Char.isDigit hball
      rw [htw]
      simp only [hball, Bool.and_false, if_false]
      by_cases hbe : (b.takeWhile Char.isDigit).isEmpty
      · simp [hbe]
      · obtain ⟨e, r', hdw, hpe, hemem⟩ := all_false_dropWhile Char.isDigit b hball
        have hlen : (b.takeWhile Char.isDigit).length ≤ b.length := takeWhile_length_le _ b
        rw [drop_append_le b ('$' :: a) hlen, drop_takeWhile_length, hdw]
        have hf : (e == '$') = false := beq_eq_false_iff_ne.mpr (fun hc => hnb (hc ▸ hemem))
        simp [hbe, hf]

theorem isEmpty_eq_beq_nil (l : List Char) : l.isEmpty = (l == []) := by
  cases l <;> rfl

theorem matchIterAt_eq_spec (s : List Char) : matchIterAt s = iterSpecAt s := by
  match s with
  | [] => rfl
  | [a] => rfl
  | [a, b] => rfl
  | a :: b :: c :: t => simp only [matchIterAt, iterSpecAt, grabCost_eq_spec]

/-- Claim C4: for every string, `detect_algorithm` returns the scheme tag of
the first matching rule of the spec's ordered eight-rule list (`classifySpec`
transcribes those rules: empty, the two pbkdf2 prefixes, the `$2[aby]$`
bcrypt shape, the argon2id prefix, the 41-char leading-`$` all-hex shape, the
32-char all-hex shape, otherwise unknown). -/
theorem C4_classifier_rule_order (s : List Char) : detect_algorithm s = classifySpec s := by
  unfold detect_algorithm classifySpec seededShape plainShape
  rw [isEmpty_eq_beq_nil, isPrefixOf_eq_take pfx256, isPrefixOf_eq_take pfx512,
    bcryptShape_eq_spec, isPrefixOf_eq_take pfxArgon, isPrefixOf_eq_take ['$']]
  simp only [List.length_singleton]

/-- Claim C5: for every string, the bcrypt work factor extracted by
`parse_bcrypt_cost` is the digit segment immediately following the `$2[aby]$`
prefix, terminated by the next `$`, parsed as an integer (`bcryptCostSpec`);
`classify("$2b$12$abcdefghijklmnopqrstuv")` yields scheme `bcrypt` with work
factor `12`; when no digits-then-`$` segment follows the prefix the work
factor is unset (`none`) while classification still returns `bcrypt`. -/
theorem C5_bcrypt_workfactor :
    (∀ s, parse_bcrypt_cost s = bcryptCostSpec s)
    ∧ detect_algorithm ("$2b$12$abcdefghijklmnopqrstuv".toList) = "bcrypt"
    ∧ parse_bcrypt_cost ("$2b$12$abcdefghijklmnopqrstuv".toList) = some 12
    ∧ detect_algorithm ("$2b$salt".toList) = "bcrypt"
    ∧ parse_bcrypt_cost ("$2b$salt".toList) = none := by
  refine ⟨?_, by rfl, by rfl, by rfl, by rfl⟩
  intro s
  match s with
  | [] => rfl
  | [a] => rfl
  | [a, b] => rfl
  | [a, b, c] => rfl
  | a :: b :: c :: d :: t =>
    simp only [parse_bcrypt_cost, bcryptCostSpec, grabCost_eq_spec]

/-- Claim C6: for every string, the pbkdf2 work factor extracted by
`parse_pbkdf2_iterations` is the integer parsed from the digits of the first
segment matching `$i=<digits>$` anywhere in the string (`iterSpec`);
`classify("$pbkdf2-sha256$i=29000$abc$def")` yields scheme `pbkdf2-sha256`
with work factor `29000`; when no such segment exists the work factor is
unset (`none`) while classification still returns the pbkdf2 scheme. -/
theorem C6_pbkdf2_workfactor :
    (∀ s, parse_pbkdf2_iterations s = iterSpec s)
    ∧ detect_algorithm ("$pbkdf2-sha256$i=29000$abc$def".toList) = "pbkdf2-sha256"
    ∧ parse_pbkdf2_iterations ("$pbkdf2-sha256$i=29000$abc$def".toList) = some 29000
    ∧ detect_algorithm ("$pbkdf2-sha256$abc".toList) = "pbkdf2-sha256"
    ∧ parse_pbkdf2_iterations ("$pbkdf2-sha256$abc".toList) = none := by
  refine ⟨?_, by rfl, by rfl, by rfl, by rfl⟩
  intro s
  induction s with
  | nil => rfl
  | cons c cs ih =>
    simp only [parse_pbkdf2_iterations, iterSpec, matchIterAt_eq_spec, ih]

theorem bcryptShape_shape {s : List Char} (h : bcryptShape s = true) :
    ∃ c t, s = '$' :: '2' :: c :: '$' :: t := by
  match s with
  | [] => simp [bcryptShape] at h
  | [a] => simp [bcryptShape] at h
  | [a, b] => simp [bcryptShape] at h
  | [a, b, c] => simp [bcryptShape] at h
  | a :: b :: c :: d :: t =>
    simp only [bcryptShape, List.getD_cons_zero, List.getD_cons_succ, Bool.and_eq_true,
      beq_iff_eq, decide_eq_true_eq] at h
    obtain ⟨⟨⟨⟨_, ha⟩, hb⟩, _⟩, hd⟩ := h
    subst ha; subst hb; subst hd
    exact ⟨c, t, rfl⟩

theorem pfx_pfx_false {P Q : List Char} {s : List Char} (i : Nat)
    (hiP : i < P.length) (hiQ : i < Q.length) (hne : P.getD i ' ' ≠ Q.getD i ' ')
    (hP : List.isPrefixOf P s = true) (hQ : List.isPrefixOf Q s = true) : False := by
  obtain ⟨r1, e1⟩ := (isPrefixOf_exists P s).1 hP
  obtain ⟨r2, e2⟩ := (isPrefixOf_exists Q s).1 hQ
  have g1 : s.getD i ' ' = P.getD i ' ' := by rw [e1]; exact List.getD_append P r1 ' ' i hiP
  have g2 : s.getD i ' ' = Q.getD i ' ' := by rw [e2]; exact List.getD_append Q r2 ' ' i hiQ
  exact hne (g1.symm.trans g2)

theorem pfx_bcrypt_false {P : List Char} {s : List Char} (h2 : 2 ≤ P.length)
    (hne : P.getD 1 ' ' ≠ '2') (hP : List.isPrefixOf P s = true)
    (hb : bcryptShape s = true) : False := by
  obtain ⟨c, t, e⟩ := bcryptShape_shape hb
  obtain ⟨r, e1⟩ := (isPrefixOf_exists P s).1 hP
  have g1 : s.getD 1 ' ' = P.getD 1 ' ' := by
    rw [e1]; exact List.getD_append P r ' ' 1 (by omega)
  have g2 : s.getD 1 ' ' = '2' := by rw [e]; rfl
  exact hne (g1.symm.trans g2)

theorem pfx_seeded_false {P : List Char} {s : List Char}
    (hPhex : (P.drop 1).all isHexChar = false) (hlen : 1 ≤ P.length)
    (hP : List.isPrefixOf P s = true) (hs : seededShape s = true) : False := by
  have hall : (s.drop 1).all isHexChar = true := by
    unfold seededShape at hs
    simp only [Bool.and_eq_true] at hs
    exact hs.2
  obtain ⟨r, e⟩ := (isPrefixOf_exists P s).1 hP
  rw [e, drop_append_le P r hlen, List.all_append, hPhex, Bool.false_and] at hall
  exact absurd hall (by simp)

theorem pfx_plain_false {P : List Char} {s : List Char}
    (hPhex : P.all isHexChar = false) (hP : List.isPrefixOf P s = true)
    (hs : plainShape s = true) : False := by
  have hall : s.all isHexChar = true := by
    unfold plainShape at hs
    simp only [Bool.and_eq_true] at hs
    exact hs.2
  obtain ⟨r, e⟩ := (isPrefixOf_exists P s).1 hP
  rw [e, List.all_append, hPhex, Bool.false_and] at hall
  exact absurd hall (by simp)

theorem bcrypt_seeded_false {s : List Char} (hb : bcryptShape s = true)
    (hs : seededShape s = true) : False := by
  obtain ⟨c, t, e⟩ := bcryptShape_shape hb
  have hall : (s.drop 1).all isHexChar = true := by
    unfold seededShape at hs
    simp only [Bool.and_eq_true] at hs
    exact hs.2
  rw [e] at hall
  simp only [List.drop_succ_cons, List.drop_zero, List.all_cons, Bool.and_eq_true] at hall
  exact absurd hall.2.2.1 (by decide)

theorem bcrypt_plain_false {s : List Char} (hb : bcryptShape s = true)
    (hs : plainShape s = true) : False := by
  obtain ⟨c, t, e⟩ := bcryptShape_shape hb
  have hall : s.all isHexChar = true := by
    unfold plainShape at hs
    simp only [Bool.and_eq_true] at hs
    exact hs.2
  rw [e] at hall
  simp only [List.all_cons, Bool.and_eq_true] at hall
  exact absurd hall.1 (by decide)

theorem seeded_plain_false {s : List Char} (h5 : seededShape s = true)
    (h6 : plainShape s = true) : False := by
  unfold seededShape at h5
  unfold plainShape at h6
  simp only [Bool.and_eq_true, beq_iff_eq] at h5 h6
  omega

theorem pfx_nonempty {P : List Char} {s : List Char} (hne : P ≠ [])
    (hP : List.isPrefixOf P s = true) : s.isEmpty = false := by
  obtain ⟨r, e⟩ := (isPrefixOf_exists P s).1 hP
  subst e
  cases P with
  | nil => exact absurd rfl hne
  | cons c cs => rfl

/-- Claim C7: for every string, at most one of the classifier's six
non-empty match conditions holds (they are pairwise mutually exclusive, so
the returned tag does not depend on the order of those checks), and a string
satisfying one of the four fixed distinctive prefix/shape conditions is
never classified `md5-seeded` or `md5-plain`. -/
theorem C7_conditions_mutually_exclusive (s : List Char) :
    (sixConds s).count true ≤ 1
    ∧ ((List.isPrefixOf pfx256 s || List.isPrefixOf pfx512 s || bcryptShape s
        || List.isPrefixOf pfxArgon s) = true
       → detect_algorithm s ≠ "md5-seeded" ∧ detect_algorithm s ≠ "md5-plain") := by
  constructor
  · cases h1 : List.isPrefixOf pfx256 s with
    | true =>
      have n2 : List.isPrefixOf pfx512 s = false := by
        cases h2 : List.isPrefixOf pfx512 s with
        | false => rfl
        | true => exact (pfx_pfx_false 11 (by decide) (by decide) (by decide) h1 h2).elim
      have n3 : bcryptShape s = false := by
        cases h3 : bcryptShape s with
        | false => rfl
        | true => exact (pfx_bcrypt_false (by decide) (by decide) h1 h3).elim
      have n4 : List.isPrefixOf pfxArgon s = false := by
        cases h4 : List.isPrefixOf pfxArgon s with
        | false => rfl
        | true => exact (pfx_pfx_false 1 (by decide) (by decide) (by decide) h1 h4).elim
      have n5 : seededShape s = false := by
        cases h5 : seededShape s with
        | false => rfl
        | true => exact (pfx_seeded_false (by decide) (by decide) h1 h5).elim
      have n6 : plainShape s = false := by
        cases h6 : plainShape s with
        | false => rfl
        | true => exact (pfx_plain_false (by decide) h1 h6).elim
      simp only [sixConds]
      rw [h1, n2, n3, n4, n5, n6]
      decide
    | false =>
      cases h2 : List.isPrefixOf pfx512 s with
      | true =>
        have n3 : bcryptShape s = false := by
          cases h3 : bcryptShape s with
          | false => rfl
          | true => exact (pfx_bcrypt_false (by decide) (by decide) h2 h3).elim
        have n4 : List.isPrefixOf pfxArgon s = false := by
          cases h4 : List.isPrefixOf pfxArgon s with
          | false => rfl
          | true => exact (pfx_pfx_false 1 (by decide) (by decide) (by decide) h2 h4).elim
        have n5 : seededShape s = false := by
          cases h5 : seededShape s with
          | false => rfl
          | true => exact (pfx_seeded_false (by decide) (by decide) h2 h5).elim
        have n6 : plainShape s = false := by
          cases h6 : plainShape s with
          | false => rfl
          | true => exact (pfx_plain_false (by decide) h2 h6).elim
        simp only [sixConds]
        rw [h1, h2, n3, n4, n5, n6]
        decide
      | false =>
        cases h3 : bcryptShape s with
        | true =>
          have n4 : List.isPrefixOf pfxArgon s = false := by
            cases h4 : List.isPrefixOf pfxArgon s with
            | false => rfl
            | true => exact (pfx_bcrypt_false (by decide) (by decide) h4 h3).elim
          have n5 : seededShape s = false := by
            cases h5 : seededShape s with
            | false => rfl
            | true => exact (bcrypt_seeded_false h3 h5).elim
          have n6 : plainShape s = false := by
            cases h6 : plainShape s with
            | false => rfl
            | true => exact (bcrypt_plain_false h3 h6).elim
          simp only [sixConds]
          rw [h1, h2, h3, n4, n5, n6]
          decide
        | false =>
          cases h4 : List.isPrefixOf pfxArgon s with
          | true =>
            have n5 : seededShape s = false := by
              cases h5 : seededShape s with
              | false => rfl
              | true => exact (pfx_seeded_false (by decide) (by decide) h4 h5).elim
            have n6 : plainShape s = false := by
              cases h6 : plainShape s with
              | false => rfl
              | true => exact (pfx_plain_false (by decide) h4 h6).elim
            simp only [sixConds]
            rw [h1, h2, h3, h4, n5, n6]
            decide
          | false =>
            cases h5 : seededShape s with
            | true =>
              have n6 : plainShape s = false := by
                cases h6 : plainShape s with
                | false => rfl
                | true => exact (seeded_plain_false h5 h6).elim
              simp only [sixConds]
              rw [h1, h2, h3, h4, h5, n6]
              decide
            | false =>
              cases h6 : plainShape s with
              | true =>
                simp only [sixConds]
                rw [h1, h2, h3, h4, h5, h6]
                decide
              | false =>
                simp only [sixConds]
                rw [h1, h2, h3, h4, h5, h6]
                decide
  · intro hor
    rw [Bool.or_eq_true, Bool.or_eq_true, Bool.or_eq_true] at hor
    rcases hor with ((h | h) | h) | h
    · have hE : s.isEmpty = false := pfx_nonempty (by decide) h
      constructor <;> simp [detect_algorithm, hE, h]
    · have hE : s.isEmpty = false := pfx_nonempty (by decide) h
      have n1 : List.isPrefixOf pfx256 s = false := by
        cases h1 : List.isPrefixOf pfx256 s with
        | false => rfl
        | true => exact (pfx_pfx_false 11 (by decide) (by decide) (by decide) h1 h).elim
      constructor <;> simp [detect_algorithm, hE, n1, h]
    · have hE : s.isEmpty = false := by
        cases s with
        | nil => simp [bcryptShape] at h
        | cons c cs => rfl
      have n1 : List.isPrefixOf pfx256 s = false := by
        cases h1 : List.isPrefixOf pfx256 s with
        | false => rfl
        | true => exact (pfx_bcrypt_false (by decide) (by decide) h1 h).elim
      have n2 : List.isPrefixOf pfx512 s = false := by
        cases h2 : List.isPrefixOf pfx512 s with
        | false => rfl
        | true => exact (pfx_bcrypt_false (by decide) (by decide) h2 h).elim
      constructor <;> simp [detect_algorithm, hE, n1, n2, h]
    · have hE : s.isEmpty = false := pfx_nonempty (by decide) h
      have n1 : List.isPrefixOf pfx256 s = false := by
        cases h1 : List.isPrefixOf pfx256 s with
        | false => rfl
        | true => exact (pfx_pfx_false 1 (by decide) (by decide) (by decide) h1 h).elim
      have n2 : List.isPrefixOf pfx512 s = false := by
        cases h2 : List.isPrefixOf pfx512 s with
        | false => rfl
        | true => exact (pfx_pfx_false 1 (by decide) (by decide) (by decide) h2 h).elim
      have n3 : bcryptShape s = false := by
        cases h3 : bcryptShape s with
        | false => rfl
        | true => exact (pfx_bcrypt_false (by decide) (by decide) h h3).elim
      constructor <;> simp [detect_algorithm, hE, n1, n2, n3, h]

/-- Witness for C7 at a concrete input: the argon2id example hash satisfies a
distinctive-prefix condition, its condition count is at most one, and it is
not classified as either legacy MD5 scheme. -/
theorem C7_witness :
    (sixConds ("$argon2id$v=19$m=65536".toList)).count true ≤ 1
    ∧ detect_algorithm ("$argon2id$v=19$m=65536".toList) ≠ "md5-seeded"
    ∧ detect_algorithm ("$argon2id$v=19$m=65536".toList) ≠ "md5-plain" :=
  ⟨(C7_conditions_mutually_exclusive ("$argon2id$v=19$m=65536".toList)).1,
   (C7_conditions_mutually_exclusive ("$argon2id$v=19$m=65536".toList)).2 (by decide)⟩

/-! ### Section extractor -/

/-- The exclusion tuple in `parse_saxdb_nickserv`:
`('version_control', 'note_types', 'dnr', 'channels', 'bots')`. -/
def exclNames : List (List Char) :=
  ["version_control", "note_types", "dnr", "channels", "bots"].map String.toList

/-- The quoted section token `'"NickServ"'` searched with `content.find`. -/
def nsToken : List Char := '\"' :: "NickServ".toList ++ ['\"']

/-- `content.find(needle)`, returning the suffix of the haystack starting at
the first occurrence (the script only ever uses offsets from that point on). -/
def findSubSuffix (needle : List Char) : List Char → Option (List Char)
  | [] => if List.isPrefixOf needle [] then some [] else none
  | c :: cs =>
    if List.isPrefixOf needle (c :: cs) then some (c :: cs) else findSubSuffix needle cs

/-- The brace-depth scan of `parse_saxdb_nickserv`: the number of characters
consumed by `while pos < len(content) and depth > 0`, starting just past the
opening brace. -/
def scanLen : List Char → Nat → Nat
  | [], _ => 0
  | c :: cs, depth =>
    let d := if c == '\x7b' then depth + 1 else if c == '\x7d' then depth - 1 else depth
    if d == 0 then 1 else 1 + scanLen cs d

/-- `True` iff the depth counter never returns to zero while scanning `s`
from the given starting depth (i.e. the section has no matching close). -/
def depthNeverCloses : List Char → Nat → Bool
  | [], _ => true
  | c :: cs, depth =>
    let d := if c == '\x7b' then depth + 1 else if c == '\x7d' then depth - 1 else depth
    if d == 0 then false else depthNeverCloses cs d

/-- Group 2 of the account pattern `"([^"]+)"\s*\x7b\s*([^\x7d]+)\s*\x7d;`
given the whole segment between the braces: the two `\s*` and the greedy
`[^\x7d]+` resolve to "strip leading whitespace, keep the rest", except that
an all-whitespace segment leaves a single character for the `+`. -/
def group2Of (seg : List Char) : List Char :=
  match seg.dropWhile pySpace with
  | [] => seg.drop (seg.length - 1)
  | c :: cs => c :: cs

/-- One attempted match of the account pattern
`"([^"]+)"\s*\x7b\s*([^\x7d]+)\s*\x7d;` at the head of `s`. Returns the
captured name, the captured property substring, and the remaining suffix
after the match. The `\x7d` matched is necessarily the first `\x7d` after
the opening brace, and the `;` must immediately follow it. -/
def matchAccountAt (s : List Char) : Option (List Char × List Char × List Char) :=
  match s with
  | [] => none
  | c :: s1 =>
    if c == '\"' then
      match splitAtChar '\"' s1 with
      | none => none
      | some (name, s2) =>
        if name.isEmpty then none
        else
          match s2.dropWhile pySpace with
          | [] => none
          | b :: u =>
            if b == '\x7b' then
              match splitAtChar '\x7d' u with
              | none => none
              | some (seg, v) =>
                if seg.isEmpty then none
                else
                  match v with
                  | [] => none
                  | w :: rest => if w == ';' then some (name, group2Of seg, rest) else none
            else none
    else none

/-- The `;?\s*` tail of the property pattern: optionally consume one `;`,
then greedily consume whitespace. -/
def consumeTail (w : List Char) : List Char :=
  match w with
  | [] => []
  | c :: r => if c == ';' then r.dropWhile pySpace else (c :: r).dropWhile pySpace

/-- One attempted match of the property pattern
`"([^"]+)"\s+(?:"([^"]*)"|(\([^)]*\)));?\s*` at the head of `s`. Returns the
captured key, the value (group 2 without its quotes, or group 3 including
its parentheses), and the remaining suffix. -/
def matchPropAt (s : List Char) : Option (List Char × List Char × List Char) :=
  match s with
  | [] => none
  | c :: s1 =>
    if c == '\"' then
      match splitAtChar '\"' s1 with
      | none => none
      | some (key, s2) =>
        if key.isEmpty then none
        else
          match s2 with
          | [] => none
          | c2 :: _ =>
            if pySpace c2 then
              match s2.dropWhile pySpace with
              | [] => none
              | q :: u =>
                if q == '\"' then
                  match splitAtChar '\"' u with
                  | none => none
                  | some (v, w) => some (key, v, consumeTail w)
                else if q == '(' then
                  match splitAtChar ')' u with
                  | none => none
                  | some (bdy, w) => some (key, '(' :: bdy ++ [')'], consumeTail w)
                else none
            else none
    else none

/-- Fueled driver for `re.finditer` of the account pattern: try a match at
the current position; on success continue after the match, otherwise advance
one character. Fuel `s.length` suffices since every step consumes at least
one character. -/
def accGo : Nat → List Char → List (List Char × List Char)
  | 0, _ => []
  | _, [] => []
  | f + 1, c :: cs =>
    match matchAccountAt (c :: cs) with
    | some (n, p, rest) => (n, p) :: accGo f rest
    | none => accGo f cs

def finditerAccounts (s : List Char) : List (List Char × List Char) := accGo s.length s

/-- Fueled driver for `re.finditer` of the property pattern. -/
def propGo : Nat → List Char → List (List Char × List Char)
  | 0, _ => []
  | _, [] => []
  | f + 1, c :: cs =>
    match matchPropAt (c :: cs) with
    | some (k, v, rest) => (k, v) :: propGo f rest
    | none => propGo f cs

def finditerProps (s : List Char) : List (List Char × List Char) := propGo s.length s

/-- Python dict assignment `m[k] = v`: overwrite the value in place if the
key is present (keeping insertion order), otherwise append the new pair. -/
def dictInsert {α β : Type} [BEq α] (m : List (α × β)) (k : α) (v : β) : List (α × β) :=
  if m.any (fun p => p.1 == k) then m.map (fun p => if p.1 == k then (k, v) else p)
  else m ++ [(k, v)]

/-- The property-building loop: `props[key] = value` over the matches. -/
def insertAll (acc : List (List Char × List Char)) :
    List (List Char × List Char) → List (List Char × List Char)
  | [] => acc
  | kv :: rest => insertAll (dictInsert acc kv.1 kv.2) rest

def buildDict (ps : List (List Char × List Char)) : List (List Char × List Char) :=
  insertAll [] ps

/-- The account loop of `parse_saxdb_nickserv`: skip excluded names, parse
the property substring, and keep the account only if it has properties. -/
def buildAccounts (acc : List (List Char × List (List Char × List Char))) :
    List (List Char × List Char) → List (List Char × List (List Char × List Char))
  | [] => acc
  | (name, pstr) :: rest =>
    if exclNames.contains name then buildAccounts acc rest
    else
      let props := buildDict (finditerProps pstr)
      if props.isEmpty then buildAccounts acc rest
      else buildAccounts (dictInsert acc name props) rest

/-- Parsing the account entries out of an already-extracted section body. -/
def parseEntries (body : List Char) : List (List Char × List (List Char × List Char)) :=
  buildAccounts [] (finditerAccounts body)

/-- The section-location part of `parse_saxdb_nickserv`: find `'"NickServ"'`,
find the first `\x7b` from there, then the depth scan; the body is the slice
`content[brace_start + 1 : pos - 1]`. -/
def sectionBody (content : List Char) : Option (List Char) :=
  match findSubSuffix nsToken content with
  | none => none
  | some suff =>
    match splitAtChar '\x7b' suff with
    | none => none
    | some (_, t) => some (t.take (scanLen t 1 - 1))

/-- `parse_saxdb_nickserv` from the script (returning the account dict as an
insertion-ordered association list). -/
def parse_saxdb_nickserv (content : List Char) :
    List (List Char × List (List Char × List Char)) :=
  match sectionBody content with
  | none => []
  | some b => parseEntries b

theorem dropWhile_length_le (p : Char → Bool) :
    ∀ l : List Char, (l.dropWhile p).length ≤ l.length := by
  intro l
  induction l with
  | nil => simp
  | cons c cs ih =>
    by_cases hc : p c
    · simp only [List.dropWhile_cons, hc, if_true, List.length_cons]
      omega
    · simp only [Bool.not_eq_true] at hc
      simp [List.dropWhile_cons, hc]

theorem matchAccountAt_length :
    ∀ {s n p rest}, matchAccountAt s = some (n, p, rest) → rest.length < s.length := by
  intro s n p rest h
  unfold matchAccountAt at h
  cases s with
  | nil => simp at h
  | cons c s1 =>
    by_cases hq : c == '\"'
    · simp only [hq, if_true] at h
      cases hsp : splitAtChar '\"' s1 with
      | none => rw [hsp] at h; simp at h
      | some ns =>
        obtain ⟨name, s2⟩ := ns
        rw [hsp] at h
        have hs2 : s2.length < s1.length := splitAtChar_length '\"' hsp
        by_cases hne : name.isEmpty
        · simp [hne] at h
        · simp only [hne, if_false, Bool.false_eq_true] at h
          cases hdw : s2.dropWhile pySpace with
          | nil => rw [hdw] at h; simp at h
          | cons b u =>
            rw [hdw] at h
            have hu : u.length < s2.length := by
              have := dropWhile_length_le pySpace s2
              rw [hdw] at this
              simp only [List.length_cons] at this
              omega
            by_cases hb : b == '\x7b'
            · simp only [hb, if_true] at h
              cases hsp2 : splitAtChar '\x7d' u with
              | none => rw [hsp2] at h; simp at h
              | some sv =>
                obtain ⟨seg, v⟩ := sv
                rw [hsp2] at h
                have hv : v.length < u.length := splitAtChar_length '\x7d' hsp2
                by_cases hse : seg.isEmpty
                · simp [hse] at h
                · simp only [hse, if_false, Bool.false_eq_true] at h
                  cases v with
                  | nil => simp at h
                  | cons w rest0 =>
                    by_cases hw : w == ';'
                    · simp only [hw, if_true, Option.some.injEq, Prod.mk.injEq] at h
                      obtain ⟨_, _, hr⟩ := h
                      subst hr
                      simp only [List.length_cons] at hv ⊢
                      omega
                    · simp [hw] at h
            · simp [hb] at h
    · simp [hq] at h

theorem consumeTail_length_le (w : List Char) : (consumeTail w).length ≤ w.length := by
  unfold consumeTail
  cases w with
  | nil => simp
  | cons c r =>
    by_cases hc : c == ';'
    · simp only [hc, if_true]
      have := dropWhile_length_le pySpace r
      simp only [List.length_cons]
      omega
    · simp only [hc, if_false, Bool.false_eq_true]
      exact dropWhile_length_le pySpace (c :: r)

theorem matchPropAt_length :
    ∀ {s k v rest}, matchPropAt s = some (k, v, rest) → rest.length < s.length := by
  intro s k v rest h
  unfold matchPropAt at h
  cases s with
  | nil => simp at h
  | cons c s1 =>
    by_cases hq : c == '\"'
    · simp only [hq, if_true] at h
      cases hsp : splitAtChar '\"' s1 with
      | none => rw [hsp] at h; simp at h
      | some ks =>
        obtain ⟨key, s2⟩ := ks
        rw [hsp] at h
        have hs2 : s2.length < s1.length := splitAtChar_length '\"' hsp
        by_cases hne : key.isEmpty
        · simp [hne] at h
        · simp only [hne, if_false, Bool.false_eq_true] at h
          cases s2 with
          | nil => simp at h
          | cons c2 s3 =>
            by_cases hc2 : pySpace c2
            · simp only [hc2, if_true] at h
              cases hdw : (c2 :: s3).dropWhile pySpace with
              | nil => rw [hdw] at h; simp at h
              | cons q u =>
                rw [hdw] at h
                have hu : u.length < (c2 :: s3).length := by
                  have := dropWhile_length_le pySpace (c2 :: s3)
                  rw [hdw] at this
                  simp only [List.length_cons] at this ⊢
                  omega
                by_cases hqq : q == '\"'
                · simp only [hqq, if_true] at h
                  cases hsp2 : splitAtChar '\"' u with
                  | none => rw [hsp2] at h; simp at h
                  | some vw =>
                    obtain ⟨v0, w⟩ := vw
                    rw [hsp2] at h
                    simp only [Option.some.injEq, Prod.mk.injEq] at h
                    obtain ⟨_, _, hr⟩ := h
                    subst hr
                    have hw : w.length < u.length := splitAtChar_length '\"' hsp2
                    have := consumeTail_length_le w
                    simp only [List.length_cons] at hu hs2 ⊢
                    omega
                · simp only [hqq, if_false, Bool.false_eq_true] at h
                  by_cases hpp : q == '('
                  · simp only [hpp, if_true] at h
                    cases hsp2 : splitAtChar ')' u with
                    | none => rw [hsp2] at h; simp at h
                    | some bw =>
                      obtain ⟨bdy, w⟩ := bw
                      rw [hsp2] at h
                      simp only [Option.some.injEq, Prod.mk.injEq] at h
                      obtain ⟨_, _, hr⟩ := h
                      subst hr
                      have hw : w.length < u.length := splitAtChar_length ')' hsp2
                      have := consumeTail_length_le w
                      simp only [List.length_cons] at hu hs2 ⊢
                      omega
                  · simp [hpp] at h
            · simp [hc2] at h
    · simp [hq] at h

theorem accGo_nil (f : Nat) : accGo f [] = [] := by
  cases f <;> rfl

theorem accGo_congr : ∀ f1 f2 s, s.length ≤ f1 → s.length ≤ f2 → accGo f1 s = accGo f2 s := by
  intro f1
  induction f1 with
  | zero =>
    intro f2 s h1 _
    have : s = [] := List.eq_nil_of_length_eq_zero (by omega)
    subst this
    rw [accGo_nil, accGo_nil]
  | succ g ih =>
    intro f2 s h1 h2
    cases s with
    | nil => rw [accGo_nil, accGo_nil]
    | cons c cs =>
      cases f2 with
      | zero => simp at h2
      | succ h =>
        cases hm : matchAccountAt (c :: cs) with
        | some npr =>
          obtain ⟨n, p, rest⟩ := npr
          have hl : rest.length < (c :: cs).length := matchAccountAt_length hm
          simp only [List.length_cons] at hl h1 h2
          simp only [accGo, hm]
          rw [ih h rest (by omega) (by omega)]
        | none =>
          simp only [List.length_cons] at h1 h2
          simp only [accGo, hm]
          exact ih h cs (by omega) (by omega)

theorem propGo_nil (f : Nat) : propGo f [] = [] := by
  cases f <;> rfl

theorem propGo_congr : ∀ f1 f2 s, s.length ≤ f1 → s.length ≤ f2 → propGo f1 s = propGo f2 s := by
  intro f1
  induction f1 with
  | zero =>
    intro f2 s h1 _
    have : s = [] := List.eq_nil_of_length_eq_zero (by omega)
    subst this
    rw [propGo_nil, propGo_nil]
  | succ g ih =>
    intro f2 s h1 h2
    cases s with
    | nil => rw [propGo_nil, propGo_nil]
    | cons c cs =>
      cases f2 with
      | zero => simp at h2
      | succ h =>
        cases hm : matchPropAt (c :: cs) with
        | some kvr =>
          obtain ⟨k, v, rest⟩ := kvr
          have hl : rest.length < (c :: cs).length := matchPropAt_length hm
          simp only [List.length_cons] at hl h1 h2
          simp only [propGo, hm]
          rw [ih h rest (by omega) (by omega)]
        | none =>
          simp only [List.length_cons] at h1 h2
          simp only [propGo, hm]
          exact ih h cs (by omega) (by omega)

theorem finditerAccounts_pos {c : Char} {cs n p rest : List Char}
    (h : matchAccountAt (c :: cs) = some (n, p, rest)) :
    finditerAccounts (c :: cs) = (n, p) :: finditerAccounts rest := by
  unfold finditerAccounts
  have hl : rest.length < (c :: cs).length := matchAccountAt_length h
  simp only [List.length_cons, accGo, h]
  simp only [List.length_cons] at hl
  rw [accGo_congr cs.length rest.length rest (by omega) (by omega)]

theorem finditerAccounts_neg {c : Char} {cs : List Char}
    (h : matchAccountAt (c :: cs) = none) :
    finditerAccounts (c :: cs) = finditerAccounts cs := by
  unfold finditerAccounts
  simp only [List.length_cons, accGo, h]

theorem finditerProps_pos {c : Char} {cs k v rest : List Char}
    (h : matchPropAt (c :: cs) = some (k, v, rest)) :
    finditerProps (c :: cs) = (k, v) :: finditerProps rest := by
  unfold finditerProps
  have hl : rest.length < (c :: cs).length := matchPropAt_length h
  simp only [List.length_cons, propGo, h]
  simp only [List.length_cons] at hl
  rw [propGo_congr cs.length rest.length rest (by omega) (by omega)]

theorem finditerProps_neg {c : Char} {cs : List Char}
    (h : matchPropAt (c :: cs) = none) :
    finditerProps (c :: cs) = finditerProps cs := by
  unfold finditerProps
  simp only [List.length_cons, propGo, h]

/-- First-match association lookup (keys in a `dictInsert`-built dict are
unique, so this is Python's `d[k]` / `k in d`). -/
def lookupA {β : Type} (k : List Char) : List (List Char × β) → Option β
  | [] => none
  | kv :: rest => if kv.1 == k then some kv.2 else lookupA k rest

theorem lookupA_append {β : Type} (k : List Char) :
    ∀ l1 l2 : List (List Char × β), lookupA k (l1 ++ l2) = (lookupA k l1).or (lookupA k l2) := by
  intro l1 l2
  induction l1 with
  | nil => simp [lookupA]
  | cons q rest ih =>
    by_cases hq : q.1 == k
    · simp [lookupA, hq]
    · simp only [List.cons_append, lookupA, hq, Bool.false_eq_true, if_false]
      exact ih

theorem lookupA_no_key {β : Type} {k : List Char} :
    ∀ m : List (List Char × β), m.any (fun p => p.1 == k) = false → lookupA k m = none := by
  intro m
  induction m with
  | nil => intro _; rfl
  | cons q rest ih =>
    intro h
    simp only [List.any_cons, Bool.or_eq_false_iff] at h
    simp only [lookupA, h.1, Bool.false_eq_true, if_false]
    exact ih h.2

theorem map_overwrite_id {β : Type} {k : List Char} (v : β) :
    ∀ m : List (List Char × β), m.any (fun p => p.1 == k) = false →
      m.map (fun p => if p.1 == k then (k, v) else p) = m := by
  intro m
  induction m with
  | nil => intro _; rfl
  | cons q rest ih =>
    intro h
    simp only [List.any_cons, Bool.or_eq_false_iff] at h
    simp only [List.map_cons, h.1, Bool.false_eq_true, if_false, ih h.2]

theorem lookupA_map_over {β : Type} (k k' : List Char) (v : β) :
    ∀ m : List (List Char × β), m.any (fun p => p.1 == k) = true →
      lookupA k' (m.map (fun p => if p.1 == k then (k, v) else p)) =
        if k' == k then some v else lookupA k' m := by
  intro m
  induction m with
  | nil => intro h; simp at h
  | cons q rest ih =>
    intro h
    simp only [List.any_cons, Bool.or_eq_true] at h
    by_cases hq : q.1 == k
    · have hq1 : q.1 = k := by simpa using hq
      by_cases hkk : k' == k
      · have : k' = k := by simpa using hkk
        subst this
        simp [List.map_cons, lookupA, hq, hkk]
      · have hkk' : (k == k') = false := by
          rw [beq_eq_false_iff_ne]
          intro he
          exact absurd (by simp [he]) hkk
        simp only [List.map_cons, hq, if_true, lookupA, hkk', Bool.false_eq_true, if_false,
          hkk]
        have hqk' : (q.1 == k') = false := by
          rw [beq_eq_false_iff_ne, hq1]
          intro he
          exact absurd (by simp [he]) hkk
        simp only [hqk', Bool.false_eq_true, if_false]
        by_cases hrest : rest.any (fun p => p.1 == k) = true
        · rw [ih hrest]
          simp [hkk]
        · rw [map_overwrite_id v rest (Bool.eq_false_iff.2 hrest)]
    · have hrest : rest.any (fun p => p.1 == k) = true := by
        rcases h with h | h
        · exact absurd h hq
        · exact h
      by_cases hqk' : q.1 == k'
      · have hne : (k' == k) = false := by
          rw [beq_eq_false_iff_ne]
          intro he
          subst he
          exact hq hqk'
        simp [List.map_cons, lookupA, hq, hqk', hne]
      · simp only [List.map_cons, hq, Bool.false_eq_true, if_false, lookupA, hqk']
        rw [ih hrest]

theorem lookupA_dictInsert {β : Type} (m : List (List Char × β)) (k k' : List Char) (v : β) :
    lookupA k' (dictInsert m k v) = if k' == k then some v else lookupA k' m := by
  unfold dictInsert
  cases hany : m.any (fun p => p.1 == k) with
  | true =>
    simp only [if_true]
    exact lookupA_map_over k k' v m hany
  | false =>
    simp only [Bool.false_eq_true, if_false]
    rw [lookupA_append]
    by_cases hkk : k' == k
    · have hk : k' = k := by simpa using hkk
      subst hk
      rw [lookupA_no_key m hany]
      simp [lookupA, hkk]
    · have hkk2 : (k == k') = false := by
        rw [beq_eq_false_iff_ne]
        intro he
        exact absurd (by simp [he]) hkk
      simp only [lookupA, hkk2, Bool.false_eq_true, if_false, hkk]
      cases lookupA k' m <;> rfl

theorem mem_dictInsert {β : Type} {m : List (List Char × β)} {k : List Char} {v : β}
    {x : List Char × β} (h : x ∈ dictInsert m k v) : x ∈ m ∨ x = (k, v) := by
  unfold dictInsert at h
  split at h
  · rw [List.mem_map] at h
    obtain ⟨y, hy, hfy⟩ := h
    by_cases hyk : y.1 == k
    · rw [if_pos hyk] at hfy
      right
      exact hfy.symm
    · rw [if_neg hyk] at hfy
      left
      rw [← hfy]
      exact hy
  · simp only [List.mem_append, List.mem_singleton] at h
    exact h

theorem dictInsert_length_ge {β : Type} (m : List (List Char × β)) (k : List Char) (v : β) :
    m.length ≤ (dictInsert m k v).length := by
  unfold dictInsert
  cases m.any (fun p => p.1 == k) with
  | true => simp
  | false => simp

theorem insertAll_length_ge :
    ∀ (ps acc : List (List Char × List Char)), acc.length ≤ (insertAll acc ps).length := by
  intro ps
  induction ps with
  | nil => intro acc; simp [insertAll]
  | cons kv rest ih =>
    intro acc
    calc acc.length ≤ (dictInsert acc kv.1 kv.2).length := dictInsert_length_ge acc kv.1 kv.2
      _ ≤ (insertAll (dictInsert acc kv.1 kv.2) rest).length := ih _

theorem buildDict_cons_ne_nil (kv : List Char × List Char) (rest : List (List Char × List Char)) :
    buildDict (kv :: rest) ≠ [] := by
  unfold buildDict insertAll
  intro h
  have h1 : (dictInsert [] kv.1 kv.2).length ≤ (insertAll (dictInsert [] kv.1 kv.2) rest).length :=
    insertAll_length_ge rest _
  rw [h] at h1
  simp [dictInsert] at h1

theorem lookupA_insertAll (k : List Char) :
    ∀ (ps acc : List (List Char × List Char)),
      lookupA k (insertAll acc ps) = (lookupA k ps.reverse).or (lookupA k acc) := by
  intro ps
  induction ps with
  | nil =>
    intro acc
    simp [insertAll, lookupA]
  | cons kv rest ih =>
    intro acc
    simp only [insertAll, List.reverse_cons]
    rw [ih, lookupA_append, Option.or_assoc, lookupA_dictInsert]
    congr 1
    by_cases hkk : k == kv.1
    · have he : k = kv.1 := by simpa using hkk
      subst he
      simp [lookupA]
    · have hkk2 : (kv.1 == k) = false := by
        rw [beq_eq_false_iff_ne]
        intro he
        exact absurd (by simp [he]) hkk
      simp only [lookupA, hkk2, Bool.false_eq_true, if_false, hkk, Option.none_or]

theorem lookupA_buildDict (ps : List (List Char × List Char)) (k : List Char) :
    lookupA k (buildDict ps) = lookupA k ps.reverse := by
  unfold buildDict
  rw [lookupA_insertAll]
  cases lookupA k ps.reverse <;> rfl

theorem contains_false_iff (l : List (List Char)) (a : List Char) :
    l.contains a = false ↔ a ∉ l := by
  induction l with
  | nil => simp
  | cons x xs ih =>
    simp only [List.contains_cons, Bool.or_eq_false_iff, List.mem_cons, not_or, ih]
    constructor
    · rintro ⟨h1, h2⟩
      exact ⟨fun he => by simp [he] at h1, h2⟩
    · rintro ⟨h1, h2⟩
      exact ⟨beq_eq_false_iff_ne.mpr h1, h2⟩

theorem matchPropAt_key_ne_nil :
    ∀ {s k v rest}, matchPropAt s = some (k, v, rest) → k ≠ [] := by
  intro s k v rest h
  unfold matchPropAt at h
  cases s with
  | nil => simp at h
  | cons c s1 =>
    by_cases hq : c == '\"'
    · simp only [hq, if_true] at h
      cases hsp : splitAtChar '\"' s1 with
      | none => rw [hsp] at h; simp at h
      | some ks =>
        obtain ⟨key, s2⟩ := ks
        rw [hsp] at h
        by_cases hne : key.isEmpty
        · simp [hne] at h
        · simp only [hne, if_false, Bool.false_eq_true] at h
          have hkey : key ≠ [] := fun he => by simp [he] at hne
          cases s2 with
          | nil => simp at h
          | cons c2 s3 =>
            by_cases hc2 : pySpace c2
            · simp only [hc2, if_true] at h
              cases hdw : (c2 :: s3).dropWhile pySpace with
              | nil => rw [hdw] at h; simp at h
              | cons q u =>
                rw [hdw] at h
                by_cases hqq : q == '\"'
                · simp only [hqq, if_true] at h
                  cases hsp2 : splitAtChar '\"' u with
                  | none => rw [hsp2] at h; simp at h
                  | some vw =>
                    obtain ⟨v0, w⟩ := vw
                    rw [hsp2] at h
                    simp only [Option.some.injEq, Prod.mk.injEq] at h
                    obtain ⟨hk, _, _⟩ := h
                    exact hk ▸ hkey
                · simp only [hqq, if_false, Bool.false_eq_true] at h
                  by_cases hpp : q == '('
                  · simp only [hpp, if_true] at h
                    cases hsp2 : splitAtChar ')' u with
                    | none => rw [hsp2] at h; simp at h
                    | some bw =>
                      obtain ⟨bdy, w⟩ := bw
                      rw [hsp2] at h
                      simp only [Option.some.injEq, Prod.mk.injEq] at h
                      obtain ⟨hk, _, _⟩ := h
                      exact hk ▸ hkey
                  · simp [hpp] at h
            · simp [hc2] at h
    · simp [hq] at h

theorem propGo_key_ne_nil :
    ∀ (f : Nat) (s : List Char) kv, kv ∈ propGo f s → kv.1 ≠ [] := by
  intro f
  induction f with
  | zero => intro s kv h; simp [propGo] at h
  | succ g ih =>
    intro s kv h
    cases s with
    | nil => simp [propGo] at h
    | cons c cs =>
      cases hm : matchPropAt (c :: cs) with
      | some kvr =>
        obtain ⟨k, v, rest⟩ := kvr
        simp only [propGo, hm, List.mem_cons] at h
        rcases h with h | h
        · rw [h]
          exact matchPropAt_key_ne_nil hm
        · exact ih rest kv h
      | none =>
        simp only [propGo, hm] at h
        exact ih cs kv h

theorem finditerProps_key_ne_nil {s : List Char} {kv : List Char × List Char}
    (h : kv ∈ finditerProps s) : kv.1 ≠ [] :=
  propGo_key_ne_nil s.length s kv h

theorem insertAll_key_pred (P : List Char → Prop) :
    ∀ (ps acc : List (List Char × List Char)),
      (∀ kv ∈ ps, P kv.1) → (∀ kv ∈ acc, P kv.1) →
      ∀ kv ∈ insertAll acc ps, P kv.1 := by
  intro ps
  induction ps with
  | nil =>
    intro acc _ hacc kv h
    exact hacc kv h
  | cons kv0 rest ih =>
    intro acc hps hacc kv h
    simp only [insertAll] at h
    refine ih (dictInsert acc kv0.1 kv0.2) (fun x hx => hps x (by simp [hx])) ?_ kv h
    intro x hx
    rcases mem_dictInsert hx with hx | hx
    · exact hacc x hx
    · rw [hx]
      exact hps kv0 (by simp)

theorem buildDict_key_ne_nil {pstr : List Char} {kv : List Char × List Char}
    (h : kv ∈ buildDict (finditerProps pstr)) : kv.1 ≠ [] := by
  unfold buildDict at h
  exact insertAll_key_pred (fun k => k ≠ []) (finditerProps pstr) []
    (fun x hx => finditerProps_key_ne_nil hx) (by simp) kv h

/-- The invariant every entry of the account dict satisfies: its name is not
excluded, its property dict is nonempty, and every property key is a
nonempty string. -/
def goodAcct (e : List Char × List (List Char × List Char)) : Prop :=
  e.1 ∉ exclNames ∧ e.2 ≠ [] ∧ ∀ kv ∈ e.2, kv.1 ≠ []

theorem buildAccounts_invariant :
    ∀ (entries : List (List Char × List Char))
      (acc : List (List Char × List (List Char × List Char))),
      (∀ e ∈ acc, goodAcct e) → ∀ e ∈ buildAccounts acc entries, goodAcct e := by
  intro entries
  induction entries with
  | nil =>
    intro acc hacc e h
    exact hacc e h
  | cons np rest ih =>
    intro acc hacc e h
    obtain ⟨name, pstr⟩ := np
    cases hexcl : exclNames.contains name with
    | true =>
      simp only [buildAccounts, hexcl, if_true] at h
      exact ih acc hacc e h
    | false =>
      simp only [buildAccounts, hexcl, Bool.false_eq_true, if_false] at h
      cases hemp : (buildDict (finditerProps pstr)).isEmpty with
      | true =>
        rw [hemp, if_pos rfl] at h
        exact ih acc hacc e h
      | false =>
        rw [hemp] at h
        simp only [Bool.false_eq_true, if_false] at h
        refine ih (dictInsert acc name (buildDict (finditerProps pstr))) ?_ e h
        intro x hx
        rcases mem_dictInsert hx with hx | hx
        · exact hacc x hx
        · rw [hx]
          refine ⟨(contains_false_iff exclNames name).1 hexcl, ?_, ?_⟩
          · intro hnil
            have hb : buildDict (finditerProps pstr) = [] := hnil
            rw [hb] at hemp
            simp at hemp
          · intro kv hkv
            exact buildDict_key_ne_nil hkv

theorem parse_invariant {content : List Char} {e : List Char × List (List Char × List Char)}
    (h : e ∈ parse_saxdb_nickserv content) : goodAcct e := by
  unfold parse_saxdb_nickserv at h
  cases hs : sectionBody content with
  | none => rw [hs] at h; simp at h
  | some b =>
    rw [hs] at h
    unfold parseEntries at h
    exact buildAccounts_invariant (finditerAccounts b) [] (by simp) e h

theorem scanLen_of_neverCloses :
    ∀ (t : List Char) (d : Nat), depthNeverCloses t d = true → scanLen t d = t.length := by
  intro t
  induction t with
  | nil => intro d _; rfl
  | cons c cs ih =>
    intro d h
    simp only [depthNeverCloses] at h
    simp only [scanLen]
    by_cases hz : (if c == '\x7b' then d + 1 else if c == '\x7d' then d - 1 else d) == 0
    · rw [if_pos hz] at h
      simp at h
    · rw [if_neg hz] at h ⊢
      rw [ih _ h]
      simp [List.length_cons]
      omega

/-- The concrete duplicate-key property block from the claim. -/
def c1block : List Char := ("\"k\" \"v1\"; \"k\" \"v2\";").toList

/-- A dump whose only account carries the duplicate-key property block. -/
def c1content : List Char :=
  ("\"NickServ\" \x7b \"alice\" \x7b \"k\" \"v1\"; \"k\" \"v2\"; \x7d; \x7d").toList

/-- Counterexample to claim C1: the property loop executes `props[key] = value`
for every match, so a repeated key is overwritten — parsing
`"k" "v1"; "k" "v2";` yields `{k: v2}`, not `{k: v1}` as claimed. -/
theorem C1_counterexample :
    buildDict (finditerProps c1block) = [("k".toList, "v2".toList)]
    ∧ buildDict (finditerProps c1block) ≠ [("k".toList, "v1".toList)]
    ∧ parse_saxdb_nickserv c1content = [("alice".toList, [("k".toList, "v2".toList)])] :=
  ⟨by decide, by decide, by decide⟩

/-- Claim C1 as amended: extraction retains the LAST occurrence's value for a
duplicated key (looking a key up in the built property dict finds the value
of its last occurrence in the match sequence), and the claim's own example
block parses to `{k: v2}`. -/
theorem C1_duplicate_key_last_wins :
    (∀ (ps : List (List Char × List Char)) (k : List Char),
      lookupA k (buildDict ps) = lookupA k ps.reverse)
    ∧ buildDict (finditerProps c1block) = [("k".toList, "v2".toList)] :=
  ⟨fun ps k => lookupA_buildDict ps k, by decide⟩

/-- A dump whose section opening brace is never closed. -/
def c2content : List Char :=
  ("\"NickServ\" \x7b \"bob\" \x7b \"passwd\" \"x\"; \x7d;").toList

/-- The full text following the section's opening brace in `c2content`. -/
def c2suffix : List Char := (" \"bob\" \x7b \"passwd\" \"x\"; \x7d;").toList

/-- Counterexample to claim C2: in the unterminated dump `c2content` the
depth never returns to zero, the claim predicts the body is the whole text
after the opening brace (whose entries contain account `bob`), yet the code
slices `content[brace_start + 1 : pos - 1]` with `pos = len(content)`, losing
the final character (here the `;` that terminates `bob`'s entry), so the
extraction result is empty. -/
theorem C2_counterexample :
    depthNeverCloses c2suffix 1 = true
    ∧ parseEntries c2suffix = [("bob".toList, [("passwd".toList, "x".toList)])]
    ∧ parse_saxdb_nickserv c2content = []
    ∧ parse_saxdb_nickserv c2content ≠ parseEntries c2suffix :=
  ⟨by decide, by decide, by decide, by decide⟩

/-- Claim C2 as amended: when the section's opening brace is never matched
(depth never returns to zero before end of text), the section body is the
text from just past the opening brace to the end of the input WITH THE FINAL
CHARACTER DROPPED (the slice `content[brace_start + 1 : len(content) - 1]`),
and entries are parsed from that body as usual. -/
theorem C2_unterminated_truncation :
    ∀ (content suff pre t : List Char),
      findSubSuffix nsToken content = some suff →
      splitAtChar '\x7b' suff = some (pre, t) →
      depthNeverCloses t 1 = true →
      parse_saxdb_nickserv content = parseEntries t.dropLast := by
  intro content suff pre t hfind hsplit hdepth
  unfold parse_saxdb_nickserv sectionBody
  simp only [hfind, hsplit, scanLen_of_neverCloses t 1 hdepth, ← List.dropLast_eq_take]

/-- Witness for the amended C2 on the concrete unterminated dump. -/
theorem C2_unterminated_truncation_witness :
    parse_saxdb_nickserv c2content = parseEntries c2suffix.dropLast :=
  C2_unterminated_truncation c2content c2content ("\"NickServ\" ".toList) c2suffix
    (by decide) (by decide) (by decide)

/-- Claim C8: every account name in the extraction result maps to a nonempty
property mapping, and no result key is in the structural-exclusion set
`version_control`, `note_types`, `dnr`, `channels`, `bots`. -/
theorem C8_result_entries_nonempty_not_excluded :
    ∀ (content : List Char) (e : List Char × List (List Char × List Char)),
      e ∈ parse_saxdb_nickserv content → e.2 ≠ [] ∧ e.1 ∉ exclNames := by
  intro content e h
  obtain ⟨h1, h2, _⟩ := parse_invariant h
  exact ⟨h2, h1⟩

/-- Witness for C8 on a concrete dump that also contains an excluded entry
and an empty candidate. -/
theorem C8_witness :
    (("bob".toList, [("passwd".toList, "x".toList)]) ∈
      parse_saxdb_nickserv
        (("\"NickServ\" \x7b \"dnr\" \x7b \"a\" \"b\"; \x7d; \"bob\" \x7b \"passwd\" \"x\"; \x7d; \x7d").toList))
    ∧ [("passwd".toList, "x".toList)] ≠ ([] : List (List Char × List Char))
    ∧ "bob".toList ∉ exclNames :=
  ⟨by decide,
   (C8_result_entries_nonempty_not_excluded
      (("\"NickServ\" \x7b \"dnr\" \x7b \"a\" \"b\"; \x7d; \"bob\" \x7b \"passwd\" \"x\"; \x7d; \x7d").toList)
      ("bob".toList, [("passwd".toList, "x".toList)]) (by decide)).1,
   (C8_result_entries_nonempty_not_excluded
      (("\"NickServ\" \x7b \"dnr\" \x7b \"a\" \"b\"; \x7d; \"bob\" \x7b \"passwd\" \"x\"; \x7d; \x7d").toList)
      ("bob".toList, [("passwd".toList, "x".toList)]) (by decide)).2⟩

/-- Claim C9: a dump without the quoted section token, or with the token but
no `\x7b` anywhere after it, extracts to the empty mapping rather than
failing. -/
theorem C9_missing_section_or_brace_empty :
    ∀ content : List Char,
      (findSubSuffix nsToken content = none
        ∨ ∃ suff, findSubSuffix nsToken content = some suff ∧ splitAtChar '\x7b' suff = none) →
      parse_saxdb_nickserv content = [] := by
  intro content h
  unfold parse_saxdb_nickserv sectionBody
  rcases h with h | ⟨suff, h1, h2⟩
  · simp only [h]
  · simp only [h1, h2]

/-- Witness for C9: one dump with no section token, one with the token but
no opening brace. -/
theorem C9_witness :
    parse_saxdb_nickserv ("nothing here".toList) = []
    ∧ parse_saxdb_nickserv ("\"NickServ\" no brace".toList) = [] :=
  ⟨C9_missing_section_or_brace_empty ("nothing here".toList) (Or.inl (by decide)),
   C9_missing_section_or_brace_empty ("\"NickServ\" no brace".toList)
     (Or.inr ⟨"\"NickServ\" no brace".toList, by decide, by decide⟩)⟩

/-- A dump with one account whose single property has an empty value. -/
def c10content : List Char :=
  ("\"NickServ\" \x7b \"alice\" \x7b \"passwd\" \"\"; \x7d; \x7d").toList

/-- Claim C10: every property key in the extraction result is nonempty;
values may be empty — `"passwd" "";` is retained with value `""` (the
account is kept and its passwd classifies as `empty`), while a pair whose
key is the empty quoted string is never parsed. -/
theorem C10_keys_nonempty_values_may_be_empty :
    (∀ (content : List Char) (e : List Char × List (List Char × List Char))
       (kv : List Char × List Char),
       e ∈ parse_saxdb_nickserv content → kv ∈ e.2 → kv.1 ≠ [])
    ∧ parse_saxdb_nickserv c10content = [("alice".toList, [("passwd".toList, [])])]
    ∧ detect_algorithm [] = "empty"
    ∧ finditerProps (("\"\" \"v\";").toList) = [] := by
  refine ⟨?_, by decide, by decide, by decide⟩
  intro content e kv he hkv
  obtain ⟨_, _, h3⟩ := parse_invariant he
  exact h3 kv hkv

/-- Witness for the universal part of C10 on the concrete dump `c10content`. -/
theorem C10_witness :
    ("passwd".toList : List Char) ≠ [] :=
  C10_keys_nonempty_values_may_be_empty.1 c10content
    ("alice".toList, [("passwd".toList, [])]) ("passwd".toList, []) (by decide) (by decide)

/-! ### Claim C3: nested braces and sibling accounts -/

/-- Characters legal inside a rendered name, key or scalar value: anything
except the structural quote and brace characters. -/
abbrev cleanStr (l : List Char) : Prop := ∀ c ∈ l, c ≠ '\"' ∧ c ≠ '\x7b' ∧ c ≠ '\x7d'

/-- Brace-free text (the interior of the nested sub-record). -/
abbrev braceFree (l : List Char) : Prop := ∀ c ∈ l, c ≠ '\x7b' ∧ c ≠ '\x7d'

/-- A well-formed sibling account entry: nonempty clean name outside the
exclusion set, and a nonempty property list of clean keys and values. -/
abbrev goodEntry (e : List Char × List (List Char × List Char)) : Prop :=
  e.1 ≠ [] ∧ cleanStr e.1 ∧ e.1 ∉ exclNames ∧ e.2 ≠ []
    ∧ ∀ kv ∈ e.2, kv.1 ≠ [] ∧ cleanStr kv.1 ∧ cleanStr kv.2

/-- Render one scalar property as `"key" "value"; `. -/
def renderProp (kv : List Char × List Char) : List Char :=
  '\"' :: kv.1 ++ '\"' :: ' ' :: '\"' :: kv.2 ++ '\"' :: ';' :: ' ' :: []

def renderProps (ps : List (List Char × List Char)) : List Char :=
  (ps.map renderProp).join

/-- Render one account entry as `"name" \x7b props \x7d; `. -/
def renderEntry (e : List Char × List (List Char × List Char)) : List Char :=
  '\"' :: e.1 ++ '\"' :: ' ' :: '\x7b' :: ' ' :: renderProps e.2 ++ '\x7d' :: ';' :: ' ' :: []

def renderEntries (l : List (List Char × List (List Char × List Char))) : List Char :=
  (l.map renderEntry).join

/-- Render the account whose property block holds a nested sub-record:
`"a" \x7b "s" \x7b Z \x7d; \x7d; `. -/
def renderNested (a s Z : List Char) : List Char :=
  '\"' :: a ++ '\"' :: ' ' :: '\x7b' :: ' ' :: '\"' :: s ++ '\"' :: ' ' :: '\x7b' :: ' '
    :: Z ++ ' ' :: '\x7d' :: ';' :: ' ' :: '\x7d' :: ';' :: ' ' :: []

/-- The section body: the nested account first, then the sibling entries. -/
def nsBody (a s Z : List Char) (sibs : List (List Char × List (List Char × List Char))) :
    List Char :=
  ' ' :: (renderNested a s Z ++ renderEntries sibs)

/-- The full dump: `"NickServ" \x7b <body> \x7d`. -/
def renderContent (a s Z : List Char)
    (sibs : List (List Char × List (List Char × List Char))) : List Char :=
  nsToken ++ ' ' :: '\x7b' :: (nsBody a s Z sibs ++ ['\x7d'])

/-- A block is depth-neutral when scanning it at any positive depth consumes
exactly the block and returns to the same depth. -/
def neutral (x : List Char) : Prop :=
  ∀ (r : List Char) (d : Nat), 1 ≤ d → scanLen (x ++ r) d = x.length + scanLen r d

theorem neutral_nil : neutral [] := by
  intro r d _
  simp

theorem neutral_cons_other {c : Char} (hc1 : c ≠ '\x7b') (hc2 : c ≠ '\x7d') {x : List Char}
    (hx : neutral x) : neutral (c :: x) := by
  intro r d hd
  have hb1 : (c == '\x7b') = false := beq_eq_false_iff_ne.mpr hc1
  have hb2 : (c == '\x7d') = false := beq_eq_false_iff_ne.mpr hc2
  have hdz : (d == 0) = false := by
    rw [beq_eq_false_iff_ne]
    omega
  simp only [List.cons_append, scanLen, hb1, hb2, Bool.false_eq_true, if_false, hdz]
  rw [show (x.append r) = x ++ r from rfl, hx r d hd]
  simp only [List.length_cons]
  omega

theorem neutral_append {x y : List Char} (hx : neutral x) (hy : neutral y) :
    neutral (x ++ y) := by
  intro r d hd
  rw [List.append_assoc, hx (y ++ r) d hd, hy r d hd, List.length_append]
  omega

theorem neutral_bracefree {x : List Char} (hx : braceFree x) : neutral x := by
  induction x with
  | nil => exact neutral_nil
  | cons c cs ih =>
    have hc := hx c (by simp)
    refine neutral_cons_other hc.1 hc.2 (ih ?_)
    intro b hb
    exact hx b (by simp [hb])

theorem neutral_braces {m : List Char} (hm : neutral m) : neutral ('\x7b' :: m ++ ['\x7d']) := by
  intro r d hd
  have hopen : ∀ (cs : List Char) (d0 : Nat), scanLen ('\x7b' :: cs) d0 = 1 + scanLen cs (d0 + 1) := by
    intro cs d0
    have : ((d0 + 1 : Nat) == 0) = false := by
      rw [beq_eq_false_iff_ne]
      omega
    simp [scanLen, this]
  have hclose : ∀ (cs : List Char) (d0 : Nat), 2 ≤ d0 →
      scanLen ('\x7d' :: cs) d0 = 1 + scanLen cs (d0 - 1) := by
    intro cs d0 h2
    have hb1 : (('\x7d' : Char) == '\x7b') = false := by decide
    have : ((d0 - 1 : Nat) == 0) = false := by
      rw [beq_eq_false_iff_ne]
      omega
    simp [scanLen, hb1, this]
  have hshape : ('\x7b' :: m ++ ['\x7d']) ++ r = '\x7b' :: (m ++ '\x7d' :: r) := by
    simp
  rw [hshape, hopen, hm ('\x7d' :: r) (d + 1) (by omega), hclose r (d + 1) (by omega)]
  simp only [List.length_cons, List.length_append, List.length_cons, List.length_nil]
  have : d + 1 - 1 = d := by omega
  rw [this]
  omega

theorem braceFree_of_clean {l : List Char} (h : cleanStr l) : braceFree l :=
  fun c hc => ⟨(h c hc).2.1, (h c hc).2.2⟩

theorem braceFree_append {x y : List Char} (hx : braceFree x) (hy : braceFree y) :
    braceFree (x ++ y) := by
  intro c hc
  rw [List.mem_append] at hc
  rcases hc with hc | hc
  · exact hx c hc
  · exact hy c hc

theorem braceFree_cons {c : Char} (hc1 : c ≠ '\x7b') (hc2 : c ≠ '\x7d') {x : List Char}
    (hx : braceFree x) : braceFree (c :: x) := by
  intro b hb
  rw [List.mem_cons] at hb
  rcases hb with hb | hb
  · rw [hb]; exact ⟨hc1, hc2⟩
  · exact hx b hb

theorem braceFree_renderProp {kv : List Char × List Char} (h1 : cleanStr kv.1)
    (h2 : cleanStr kv.2) : braceFree (renderProp kv) := by
  unfold renderProp
  refine braceFree_append (braceFree_append ?_ ?_) (by decide)
  · exact braceFree_cons (by decide) (by decide) (braceFree_of_clean h1)
  · refine braceFree_cons (by decide) (by decide) ?_
    refine braceFree_cons (by decide) (by decide) ?_
    exact braceFree_cons (by decide) (by decide) (braceFree_of_clean h2)

theorem braceFree_renderProps {ps : List (List Char × List Char)}
    (h : ∀ kv ∈ ps, cleanStr kv.1 ∧ cleanStr kv.2) : braceFree (renderProps ps) := by
  induction ps with
  | nil =>
    intro c hc
    simp [renderProps] at hc
  | cons kv tl ih =>
    have : renderProps (kv :: tl) = renderProp kv ++ renderProps tl := by
      simp [renderProps]
    rw [this]
    exact braceFree_append
      (braceFree_renderProp (h kv (by simp)).1 (h kv (by simp)).2)
      (ih (fun x hx => h x (by simp [hx])))

theorem renderEntry_decomp (e : List Char × List (List Char × List Char)) :
    renderEntry e = ('\"' :: e.1 ++ ['\"', ' '])
      ++ ('\x7b' :: (' ' :: renderProps e.2) ++ ['\x7d']) ++ [';', ' '] := by
  simp [renderEntry, List.append_assoc]

theorem neutral_renderEntry {e : List Char × List (List Char × List Char)}
    (h1 : cleanStr e.1) (h2 : ∀ kv ∈ e.2, cleanStr kv.1 ∧ cleanStr kv.2) :
    neutral (renderEntry e) := by
  rw [renderEntry_decomp]
  refine neutral_append (neutral_append ?_ ?_) ?_
  · refine neutral_bracefree (braceFree_cons (by decide) (by decide)
      (braceFree_append (braceFree_of_clean h1) ?_))
    intro c hc
    simp only [List.mem_cons, List.not_mem_nil, or_false] at hc
    rcases hc with hc | hc <;> rw [hc] <;> exact ⟨by decide, by decide⟩
  · exact neutral_braces (neutral_bracefree
      (braceFree_cons (by decide) (by decide) (braceFree_renderProps h2)))
  · refine neutral_bracefree ?_
    intro c hc
    simp only [List.mem_cons, List.not_mem_nil, or_false] at hc
    rcases hc with hc | hc <;> rw [hc] <;> exact ⟨by decide, by decide⟩

theorem renderNested_decomp (a s Z : List Char) :
    renderNested a s Z = ('\"' :: a ++ ['\"', ' '])
      ++ ('\x7b' :: ((' ' :: '\"' :: s ++ ['\"', ' '])
            ++ ('\x7b' :: (' ' :: Z ++ [' ']) ++ ['\x7d']) ++ [';', ' ']) ++ ['\x7d'])
      ++ [';', ' '] := by
  simp [renderNested, List.append_assoc]

theorem neutral_renderNested {a s Z : List Char} (ha : cleanStr a) (hs : cleanStr s)
    (hz : braceFree Z) : neutral (renderNested a s Z) := by
  rw [renderNested_decomp]
  refine neutral_append (neutral_append ?_ (neutral_braces ?_)) ?_
  · exact neutral_bracefree (braceFree_cons (by decide) (by decide)
      (braceFree_append (braceFree_of_clean ha) (by decide)))
  · refine neutral_append (neutral_append ?_ (neutral_braces ?_)) ?_
    · exact neutral_bracefree (braceFree_cons (by decide) (by decide)
        (braceFree_cons (by decide) (by decide)
          (braceFree_append (braceFree_of_clean hs) (by decide))))
    · exact neutral_bracefree (braceFree_cons (by decide) (by decide)
        (braceFree_append hz (by decide)))
    · exact neutral_bracefree (by decide)
  · exact neutral_bracefree (by decide)

theorem neutral_renderEntries {sibs : List (List Char × List (List Char × List Char))}
    (h : ∀ e ∈ sibs, cleanStr e.1 ∧ ∀ kv ∈ e.2, cleanStr kv.1 ∧ cleanStr kv.2) :
    neutral (renderEntries sibs) := by
  induction sibs with
  | nil =>
    have : renderEntries [] = [] := by simp [renderEntries]
    rw [this]
    exact neutral_nil
  | cons e tl ih =>
    have hre : renderEntries (e :: tl) = renderEntry e ++ renderEntries tl := by
      simp [renderEntries]
    rw [hre]
    exact neutral_append
      (neutral_renderEntry (h e (by simp)).1 (h e (by simp)).2)
      (ih (fun x hx => h x (by simp [hx])))

theorem findSubSuffix_self {needle rest : List Char} (h : needle ≠ []) :
    findSubSuffix needle (needle ++ rest) = some (needle ++ rest) := by
  cases needle with
  | nil => exact absurd rfl h
  | cons n ns =>
    have hp : List.isPrefixOf (n :: ns) ((n :: ns) ++ rest) = true :=
      (isPrefixOf_exists (n :: ns) ((n :: ns) ++ rest)).2 ⟨rest, rfl⟩
    simp only [List.cons_append] at hp ⊢
    simp [findSubSuffix, hp]

theorem sectionBody_renderContent {a s Z : List Char}
    {sibs : List (List Char × List (List Char × List Char))}
    (ha : cleanStr a) (hs : cleanStr s) (hz : braceFree Z)
    (hsibs : ∀ e ∈ sibs, cleanStr e.1 ∧ ∀ kv ∈ e.2, cleanStr kv.1 ∧ cleanStr kv.2) :
    sectionBody (renderContent a s Z sibs) = some (nsBody a s Z sibs) := by
  have hfind : findSubSuffix nsToken (renderContent a s Z sibs)
      = some (renderContent a s Z sibs) := by
    unfold renderContent
    exact findSubSuffix_self (by decide)
  have hsplit : splitAtChar '\x7b' (renderContent a s Z sibs)
      = some (nsToken ++ [' '], nsBody a s Z sibs ++ ['\x7d']) := by
    have e1 : renderContent a s Z sibs
        = (nsToken ++ [' ']) ++ '\x7b' :: (nsBody a s Z sibs ++ ['\x7d']) := by
      simp [renderContent, List.append_assoc]
    rw [e1]
    exact splitAtChar_append '\x7b' (nsToken ++ [' ']) _ (by decide)
  have hneutral : neutral (nsBody a s Z sibs) := by
    unfold nsBody
    refine neutral_cons_other (by decide) (by decide)
      (neutral_append (neutral_renderNested ha hs hz) (neutral_renderEntries hsibs))
  have hscan : scanLen (nsBody a s Z sibs ++ ['\x7d']) 1 = (nsBody a s Z sibs).length + 1 := by
    have h1 : scanLen ['\x7d'] 1 = 1 := rfl
    rw [hneutral ['\x7d'] 1 (by omega), h1]
  unfold sectionBody
  simp only [hfind, hsplit, hscan, Nat.add_sub_cancel, List.take_left]

theorem pySpace_space : pySpace ' ' = true := rfl

theorem pySpace_quote : pySpace '\"' = false := rfl

theorem pySpace_obr : pySpace '\x7b' = false := rfl

theorem quote_not_mem {l : List Char} (h : cleanStr l) : '\"' ∉ l :=
  fun hm => (h '\"' hm).1 rfl

theorem isEmpty_false_of_ne_nil {l : List Char} (h : l ≠ []) : l.isEmpty = false := by
  cases l with
  | nil => exact absurd rfl h
  | cons c cs => rfl

theorem dropWhile_renderProps {ps : List (List Char × List Char)} :
    (renderProps ps).dropWhile pySpace = renderProps ps := by
  cases ps with
  | nil => rfl
  | cons kv tl =>
    have hform : renderProps (kv :: tl)
        = '\"' :: (kv.1 ++ '\"' :: ' ' :: '\"' :: (kv.2 ++ '\"' :: ';' :: ' ' :: renderProps tl)) := by
      simp [renderProps, renderProp, List.append_assoc]
    rw [hform]
    simp [List.dropWhile_cons, pySpace_quote]

theorem matchAccountAt_entry {e : List Char × List (List Char × List Char)} {r : List Char}
    (hn : e.1 ≠ []) (hc : cleanStr e.1) (hne : e.2 ≠ [])
    (hprops : ∀ kv ∈ e.2, cleanStr kv.1 ∧ cleanStr kv.2) :
    matchAccountAt (renderEntry e ++ r) = some (e.1, renderProps e.2, ' ' :: r) := by
  have hform : renderEntry e ++ r
      = '\"' :: (e.1 ++ '\"' :: (' ' :: '\x7b' :: ' '
          :: (renderProps e.2 ++ '\x7d' :: ';' :: ' ' :: r))) := by
    simp [renderEntry, List.append_assoc]
  rw [hform]
  simp only [matchAccountAt]
  rw [splitAtChar_append '\"' e.1 _ (quote_not_mem hc)]
  simp only [beq_self_eq_true, if_true, isEmpty_false_of_ne_nil hn, Bool.false_eq_true,
    if_false]
  have hdw : (' ' :: '\x7b' :: ' ' :: (renderProps e.2 ++ '\x7d' :: ';' :: ' ' :: r)).dropWhile
      pySpace = '\x7b' :: ' ' :: (renderProps e.2 ++ '\x7d' :: ';' :: ' ' :: r) := by
    simp [List.dropWhile_cons, pySpace_space, pySpace_obr]
  rw [hdw]
  have hsp2 : splitAtChar '\x7d' (' ' :: (renderProps e.2 ++ '\x7d' :: ';' :: ' ' :: r))
      = some (' ' :: renderProps e.2, ';' :: ' ' :: r) := by
    have hshape : ' ' :: (renderProps e.2 ++ '\x7d' :: ';' :: ' ' :: r)
        = (' ' :: renderProps e.2) ++ '\x7d' :: (';' :: ' ' :: r) := by
      simp
    rw [hshape]
    refine splitAtChar_append '\x7d' (' ' :: renderProps e.2) _ ?_
    intro hm
    rcases List.mem_cons.1 hm with hm | hm
    · exact absurd hm (by decide)
    · have hbf : braceFree (renderProps e.2) :=
        braceFree_renderProps (fun kv hkv => hprops kv hkv)
      exact (hbf '\x7d' hm).2 rfl
  simp only [hsp2, beq_self_eq_true, if_true, List.isEmpty_cons, Bool.false_eq_true, if_false]
  have hg2 : group2Of (' ' :: renderProps e.2) = renderProps e.2 := by
    unfold group2Of
    rw [List.dropWhile_cons]
    simp only [pySpace_space, if_true, dropWhile_renderProps]
    cases hps : renderProps e.2 with
    | nil =>
      exfalso
      cases hcases : e.2 with
      | nil => exact hne hcases
      | cons kv tl =>
        rw [hcases] at hps
        have hrp : renderProps (kv :: tl)
            = '\"' :: (kv.1 ++ '\"' :: ' ' :: '\"' :: (kv.2 ++ '\"' :: ';' :: ' ' :: renderProps tl)) := by
          simp [renderProps, renderProp, List.append_assoc]
        rw [hrp] at hps
        exact absurd hps (by simp)
    | cons c cs => rfl
  simp only [hg2]

theorem matchAccountAt_nested {a s Z r : List Char} (ha : a ≠ []) (hca : cleanStr a)
    (hcs : cleanStr s) (hz : braceFree Z) :
    matchAccountAt (renderNested a s Z ++ r)
      = some (a, group2Of (' ' :: '\"' :: (s ++ '\"' :: ' ' :: '\x7b' :: ' ' :: (Z ++ [' ']))),
          ' ' :: '\x7d' :: ';' :: ' ' :: r) := by
  have hform : renderNested a s Z ++ r
      = '\"' :: (a ++ '\"' :: (' ' :: '\x7b' :: ' ' :: '\"'
          :: (s ++ '\"' :: ' ' :: '\x7b' :: ' '
              :: (Z ++ ' ' :: '\x7d' :: ';' :: ' ' :: '\x7d' :: ';' :: ' ' :: r)))) := by
    simp [renderNested, List.append_assoc]
  rw [hform]
  simp only [matchAccountAt]
  rw [splitAtChar_append '\"' a _ (quote_not_mem hca)]
  simp only [beq_self_eq_true, if_true, isEmpty_false_of_ne_nil ha, Bool.false_eq_true,
    if_false]
  have hdw : (' ' :: '\x7b' :: ' ' :: '\"'
      :: (s ++ '\"' :: ' ' :: '\x7b' :: ' '
          :: (Z ++ ' ' :: '\x7d' :: ';' :: ' ' :: '\x7d' :: ';' :: ' ' :: r))).dropWhile pySpace
      = '\x7b' :: ' ' :: '\"'
          :: (s ++ '\"' :: ' ' :: '\x7b' :: ' '
              :: (Z ++ ' ' :: '\x7d' :: ';' :: ' ' :: '\x7d' :: ';' :: ' ' :: r)) := by
    simp [List.dropWhile_cons, pySpace_space, pySpace_obr]
  rw [hdw]
  have hsp2 : splitAtChar '\x7d' (' ' :: '\"'
      :: (s ++ '\"' :: ' ' :: '\x7b' :: ' '
          :: (Z ++ ' ' :: '\x7d' :: ';' :: ' ' :: '\x7d' :: ';' :: ' ' :: r)))
      = some (' ' :: '\"' :: (s ++ '\"' :: ' ' :: '\x7b' :: ' ' :: (Z ++ [' '])),
          ';' :: ' ' :: '\x7d' :: ';' :: ' ' :: r) := by
    have hshape : ' ' :: '\"'
        :: (s ++ '\"' :: ' ' :: '\x7b' :: ' '
            :: (Z ++ ' ' :: '\x7d' :: ';' :: ' ' :: '\x7d' :: ';' :: ' ' :: r))
        = (' ' :: '\"' :: (s ++ '\"' :: ' ' :: '\x7b' :: ' ' :: (Z ++ [' '])))
            ++ '\x7d' :: (';' :: ' ' :: '\x7d' :: ';' :: ' ' :: r) := by
      simp [List.append_assoc]
    rw [hshape]
    refine splitAtChar_append '\x7d' _ _ ?_
    intro hm
    simp only [List.mem_cons, List.mem_append, List.mem_singleton] at hm
    rcases hm with hm | hm | hm | hm | hm | hm | hm | hm | hm
    · exact absurd hm (by decide)
    · exact absurd hm (by decide)
    · exact (hcs '\x7d' hm).2.2 rfl
    · exact absurd hm (by decide)
    · exact absurd hm (by decide)
    · exact absurd hm (by decide)
    · exact absurd hm (by decide)
    · exact (hz '\x7d' hm).2 rfl
    · exact absurd hm (by decide)
  simp only [hsp2, beq_self_eq_true, if_true, List.isEmpty_cons, Bool.false_eq_true, if_false]

theorem isEmpty_false_of_ne_nil2 {α : Type} {l : List α} (h : l ≠ []) : l.isEmpty = false := by
  cases l with
  | nil => exact absurd rfl h
  | cons c cs => rfl

theorem matchAccountAt_nonquote {c : Char} {cs : List Char} (h : (c == '\"') = false) :
    matchAccountAt (c :: cs) = none := by
  simp [matchAccountAt, h]

theorem finditerAccounts_some {s n p rest : List Char}
    (h : matchAccountAt s = some (n, p, rest)) :
    finditerAccounts s = (n, p) :: finditerAccounts rest := by
  cases s with
  | nil => simp [matchAccountAt] at h
  | cons c cs => exact finditerAccounts_pos h

theorem finditer_skip_char {c : Char} {cs : List Char} (h : (c == '\"') = false) :
    finditerAccounts (c :: cs) = finditerAccounts cs :=
  finditerAccounts_neg (matchAccountAt_nonquote h)

theorem finditer_renderEntries {sibs : List (List Char × List (List Char × List Char))}
    (hgood : ∀ e ∈ sibs, goodEntry e) :
    finditerAccounts (renderEntries sibs) = sibs.map (fun e => (e.1, renderProps e.2)) := by
  induction sibs with
  | nil => rfl
  | cons e tl ih =>
    have hre : renderEntries (e :: tl) = renderEntry e ++ renderEntries tl := by
      simp [renderEntries]
    obtain ⟨hn, hc, _, hne, hkv⟩ := hgood e (by simp)
    have hm := matchAccountAt_entry (r := renderEntries tl) hn hc hne
      (fun kv hkv2 => ⟨(hkv kv hkv2).2.1, (hkv kv hkv2).2.2⟩)
    rw [hre, finditerAccounts_some hm, finditer_skip_char (by decide),
      ih (fun x hx => hgood x (by simp [hx]))]
    simp

theorem matchPropAt_renderProp {kv : List Char × List Char} {r : List Char}
    (hk : kv.1 ≠ []) (hck : cleanStr kv.1) (hcv : cleanStr kv.2) :
    matchPropAt (renderProp kv ++ r) = some (kv.1, kv.2, r.dropWhile pySpace) := by
  have hform : renderProp kv ++ r
      = '\"' :: (kv.1 ++ '\"' :: (' ' :: '\"' :: (kv.2 ++ '\"' :: ';' :: ' ' :: r))) := by
    simp [renderProp, List.append_assoc]
  rw [hform]
  simp only [matchPropAt]
  rw [splitAtChar_append '\"' kv.1 _ (quote_not_mem hck)]
  simp only [beq_self_eq_true, if_true, isEmpty_false_of_ne_nil hk, Bool.false_eq_true,
    if_false, pySpace_space]
  have hdw : (' ' :: '\"' :: (kv.2 ++ '\"' :: ';' :: ' ' :: r)).dropWhile pySpace
      = '\"' :: (kv.2 ++ '\"' :: ';' :: ' ' :: r) := by
    simp [List.dropWhile_cons, pySpace_space, pySpace_quote]
  rw [hdw]
  have hsp2 : splitAtChar '\"' (kv.2 ++ '\"' :: ';' :: ' ' :: r)
      = some (kv.2, ';' :: ' ' :: r) :=
    splitAtChar_append '\"' kv.2 _ (quote_not_mem hcv)
  simp only [hsp2, beq_self_eq_true, if_true]
  have hct : consumeTail (';' :: ' ' :: r) = r.dropWhile pySpace := by
    simp [consumeTail, List.dropWhile_cons, pySpace_space]
  rw [hct]

theorem finditerProps_some {s k v rest : List Char}
    (h : matchPropAt s = some (k, v, rest)) :
    finditerProps s = (k, v) :: finditerProps rest := by
  cases s with
  | nil => simp [matchPropAt] at h
  | cons c cs => exact finditerProps_pos h

theorem finditer_renderProps {ps : List (List Char × List Char)}
    (h : ∀ kv ∈ ps, kv.1 ≠ [] ∧ cleanStr kv.1 ∧ cleanStr kv.2) :
    finditerProps (renderProps ps) = ps := by
  induction ps with
  | nil => rfl
  | cons kv tl ih =>
    have hre : renderProps (kv :: tl) = renderProp kv ++ renderProps tl := by
      simp [renderProps]
    obtain ⟨h1, h2, h3⟩ := h kv (by simp)
    have hm := matchPropAt_renderProp (r := renderProps tl) h1 h2 h3
    rw [hre, finditerProps_some hm, dropWhile_renderProps,
      ih (fun x hx => h x (by simp [hx]))]

theorem lookupA_isSome_dictInsert {β : Type} {acc : List (List Char × β)} {k n : List Char}
    {v : β} (h : (lookupA k acc).isSome = true) :
    (lookupA k (dictInsert acc n v)).isSome = true := by
  rw [lookupA_dictInsert]
  by_cases hkn : k == n
  · simp [hkn]
  · simp [hkn, h]

theorem buildAccounts_preserves :
    ∀ (entries : List (List Char × List Char))
      (acc : List (List Char × List (List Char × List Char))) (k : List Char),
      (lookupA k acc).isSome = true →
      (lookupA k (buildAccounts acc entries)).isSome = true := by
  intro entries
  induction entries with
  | nil =>
    intro acc k h
    exact h
  | cons np rest ih =>
    intro acc k h
    obtain ⟨n0, p0⟩ := np
    cases h1 : exclNames.contains n0 with
    | true =>
      simp only [buildAccounts, h1, if_true]
      exact ih acc k h
    | false =>
      cases h2 : (buildDict (finditerProps p0)).isEmpty with
      | true =>
        simp only [buildAccounts, h1, Bool.false_eq_true, if_false, h2, if_true]
        exact ih acc k h
      | false =>
        simp only [buildAccounts, h1, Bool.false_eq_true, if_false, h2]
        exact ih _ k (lookupA_isSome_dictInsert h)

theorem buildAccounts_sibling :
    ∀ (sibs : List (List Char × List (List Char × List Char)))
      (acc : List (List Char × List (List Char × List Char)))
      (e : List Char × List (List Char × List Char)),
      e ∈ sibs → (∀ x ∈ sibs, goodEntry x) →
      (lookupA e.1 (buildAccounts acc (sibs.map (fun x => (x.1, renderProps x.2))))).isSome
        = true := by
  intro sibs
  induction sibs with
  | nil =>
    intro acc e he _
    simp at he
  | cons x tl ih =>
    intro acc e he hgood
    obtain ⟨hxn, hxc, hxe, hxne, hxkv⟩ := hgood x (by simp)
    have hcontains : exclNames.contains x.1 = false := (contains_false_iff _ _).2 hxe
    have hprops_eq : finditerProps (renderProps x.2) = x.2 :=
      finditer_renderProps (fun kv hk => hxkv kv hk)
    have hbne : (buildDict (finditerProps (renderProps x.2))).isEmpty = false := by
      rw [hprops_eq]
      cases hx2 : x.2 with
      | nil => exact absurd hx2 hxne
      | cons kv ktl => exact isEmpty_false_of_ne_nil2 (buildDict_cons_ne_nil kv ktl)
    simp only [List.map_cons, buildAccounts, hcontains, Bool.false_eq_true, if_false, hbne]
    rcases List.mem_cons.1 he with he | he
    · subst he
      apply buildAccounts_preserves
      rw [lookupA_dictInsert]
      simp
    · exact ih _ e he (fun y hy => hgood y (by simp [hy]))

/-- Claim C3: for every dump whose section body contains an account with a
nested `\x7b`/`\x7d` sub-record in its property block followed by any list of
well-formed sibling account entries, the depth-counted section scan does not
terminate early (the extracted section body is the full body, up to the
section's own closing brace), and every well-formed sibling account still
appears in the extraction result. -/
theorem C3_nested_braces_keep_siblings :
    ∀ (a s Z : List Char) (sibs : List (List Char × List (List Char × List Char))),
      a ≠ [] → cleanStr a → s ≠ [] → cleanStr s → braceFree Z →
      (∀ e ∈ sibs, goodEntry e) →
      sectionBody (renderContent a s Z sibs) = some (nsBody a s Z sibs)
      ∧ ∀ e ∈ sibs,
          (lookupA e.1 (parse_saxdb_nickserv (renderContent a s Z sibs))).isSome = true := by
  intro a s Z sibs ha hca hs hcs hz hgood
  have hsibs : ∀ e ∈ sibs, cleanStr e.1 ∧ ∀ kv ∈ e.2, cleanStr kv.1 ∧ cleanStr kv.2 := by
    intro e he
    obtain ⟨_, h1, _, _, h2⟩ := hgood e he
    exact ⟨h1, fun kv hkv => ⟨(h2 kv hkv).2.1, (h2 kv hkv).2.2⟩⟩
  have hsec : sectionBody (renderContent a s Z sibs) = some (nsBody a s Z sibs) :=
    sectionBody_renderContent hca hcs hz hsibs
  refine ⟨hsec, ?_⟩
  intro e he
  have hparse : parse_saxdb_nickserv (renderContent a s Z sibs)
      = parseEntries (nsBody a s Z sibs) := by
    unfold parse_saxdb_nickserv
    rw [hsec]
  rw [hparse]
  have hfind : finditerAccounts (nsBody a s Z sibs)
      = (a, group2Of (' ' :: '\"' :: (s ++ '\"' :: ' ' :: '\x7b' :: ' ' :: (Z ++ [' ']))))
          :: sibs.map (fun x => (x.1, renderProps x.2)) := by
    unfold nsBody
    rw [finditer_skip_char (by decide)]
    have hm := matchAccountAt_nested (r := renderEntries sibs) ha hca hcs hz
    rw [finditerAccounts_some hm, finditer_skip_char (by decide),
      finditer_skip_char (by decide), finditer_skip_char (by decide),
      finditer_skip_char (by decide), finditer_renderEntries hgood]
  unfold parseEntries
  rw [hfind]
  obtain ⟨acc2, hacc2⟩ : ∃ acc2,
      buildAccounts []
        ((a, group2Of (' ' :: '\"' :: (s ++ '\"' :: ' ' :: '\x7b' :: ' ' :: (Z ++ [' ']))))
          :: sibs.map (fun x => (x.1, renderProps x.2)))
        = buildAccounts acc2 (sibs.map (fun x => (x.1, renderProps x.2))) := by
    cases h1 : exclNames.contains a with
    | true => exact ⟨[], by simp only [buildAccounts, h1, if_true]⟩
    | false =>
      cases h2 : (buildDict (finditerProps (group2Of (' ' :: '\"'
          :: (s ++ '\"' :: ' ' :: '\x7b' :: ' ' :: (Z ++ [' '])))))).isEmpty with
      | true =>
        exact ⟨[], by simp only [buildAccounts, h1, Bool.false_eq_true, if_false, h2, if_true]⟩
      | false =>
        refine ⟨dictInsert [] a (buildDict (finditerProps (group2Of (' ' :: '\"'
          :: (s ++ '\"' :: ' ' :: '\x7b' :: ' ' :: (Z ++ [' '])))))), ?_⟩
        simp only [buildAccounts, h1, Bool.false_eq_true, if_false, h2]
  rw [hacc2]
  exact buildAccounts_sibling sibs acc2 e he hgood

/-- Witness for C3: a concrete dump with a nested sub-record account `alice`
followed by sibling `bob`; the section body is extracted in full and `bob`
appears in the result. -/
theorem C3_witness :
    sectionBody (renderContent ("alice".toList) ("sub".toList) ("\"p\" \"q\";".toList)
        [("bob".toList, [("passwd".toList, "xyz".toList)])])
      = some (nsBody ("alice".toList) ("sub".toList) ("\"p\" \"q\";".toList)
        [("bob".toList, [("passwd".toList, "xyz".toList)])])
    ∧ (lookupA ("bob".toList)
        (parse_saxdb_nickserv (renderContent ("alice".toList) ("sub".toList)
          ("\"p\" \"q\";".toList)
          [("bob".toList, [("passwd".toList, "xyz".toList)])]))).isSome = true :=
  ⟨(C3_nested_braces_keep_siblings ("alice".toList) ("sub".toList) ("\"p\" \"q\";".toList)
      [("bob".toList, [("passwd".toList, "xyz".toList)])]
      (by decide) (by decide) (by decide) (by decide) (by decide) (by decide)).1,
   (C3_nested_braces_keep_siblings ("alice".toList) ("sub".toList) ("\"p\" \"q\";".toList)
      [("bob".toList, [("passwd".toList, "xyz".toList)])]
      (by decide) (by decide) (by decide) (by decide) (by decide) (by decide)).2
     ("bob".toList, [("passwd".toList, "xyz".toList)]) (by decide)⟩
